import Mathlib

/-!
# cell.c: coordinate cells (Z-order keys) in 2, 3 and 4 dimensions

A shallow embedding of `src/cell.c`.

* `uint32_t` / `uint64_t` values are natural numbers; every operation that can
  leave the word (a left shift, a narrowing conversion) carries its explicit
  `% 2^w`.
* `double` values are exact rationals.  The only floating point operations of
  the codec are comparisons, a multiplication by `2^32` and a division by
  `2^32`, all of which are exact on finite doubles in the range concerned.
* A C string is the list of the characters that precede its terminating NUL;
  a `NULL` pointer is `none`.
-/

namespace Cell

/-! ## Tables and constants -/

/-- The digit table `HEX` of the source, `"0123456789abcdef"`. -/
def HEX : List Char := "0123456789abcdef".toList

/-- The element `HEX[n]`; the array of the source ends with a NUL at index 16. -/
def HEX_at (n : Nat) : Char := HEX.getD n (Char.ofNat 0)

/-- The 256 entries of the lookup table `TBL` of the source.  The filler
character of the table is `'-'`, whose code is 45. -/
def TBL : List Nat :=
  List.replicate 48 45
    ++ [0x00, 0x01, 0x02, 0x03, 0x04, 0x05, 0x06, 0x07, 0x08, 0x09]
    ++ List.replicate 7 45
    ++ [0x0A, 0x0B, 0x0C, 0x0D, 0x0E, 0x0F]
    ++ List.replicate 26 45
    ++ [0x0A, 0x0B, 0x0C, 0x0D, 0x0E, 0x0F]
    ++ List.replicate 57 45
    ++ List.replicate 57 45
    ++ List.replicate 39 45

/-- The value `TBL[(int)ch]` for a character code `ch`.  Plain `char` may be
signed, in which case a code of 128 or more indexes in front of the table; the
result is then not determined by the source and is `none` here. -/
def TBL_at (ch : Nat) : Option Nat :=
  if ch < 128 then TBL[ch]? else none

/-- The constant `MAX_COORD`, with the decimal expansion written in the source. -/
def MAX_COORD : ℚ :=
  99999999999999988897769753748434595763683319091796875 / 10 ^ 53

/-- The factor `(double)((int64_t)1 << 32)`. -/
def scale : ℚ := ((1 <<< 32 : Nat) : ℚ)

/-! ## Clamp and fixed point conversion -/

/-- The function `clip`. -/
def clip (x : ℚ) : ℚ :=
  if x < 0 then 0 else if x > MAX_COORD then MAX_COORD else x

/-- Conversion of a `double` to an integer: the fractional part is discarded
(truncation toward zero). -/
def trunc (d : ℚ) : Int := if 0 ≤ d then ⌊d⌋ else ⌈d⌉

/-- The conversion `(uint32_t)d` of a `double`: truncation, kept in 32 bits. -/
def to_uint32 (d : ℚ) : Nat := (trunc d % 2 ^ 32).toNat

/-! ## Bit interleaving -/

/-- The function `interleave`; its argument is a `uint32_t`. -/
def interleave (input : Nat) : Nat :=
  let word := input
  let word := (word ^^^ ((word <<< 16) % 2 ^ 64)) &&& 0x0000ffff0000ffff
  let word := (word ^^^ ((word <<< 8) % 2 ^ 64)) &&& 0x00ff00ff00ff00ff
  let word := (word ^^^ ((word <<< 4) % 2 ^ 64)) &&& 0x0f0f0f0f0f0f0f0f
  let word := (word ^^^ ((word <<< 2) % 2 ^ 64)) &&& 0x3333333333333333
  let word := (word ^^^ ((word <<< 1) % 2 ^ 64)) &&& 0x5555555555555555
  word

/-- The function `deinterleave`; its argument is a `uint64_t` and its result a
`uint32_t`. -/
def deinterleave (word : Nat) : Nat :=
  let word := word &&& 0x5555555555555555
  let word := (word ^^^ (word >>> 1)) &&& 0x3333333333333333
  let word := (word ^^^ (word >>> 2)) &&& 0x0f0f0f0f0f0f0f0f
  let word := (word ^^^ (word >>> 4)) &&& 0x00ff00ff00ff00ff
  let word := (word ^^^ (word >>> 8)) &&& 0x0000ffff0000ffff
  let word := (word ^^^ (word >>> 16)) &&& 0x00000000ffffffff
  word % 2 ^ 32

/-! ## Cells -/

/-- The type `cell_xyz`: two 64-bit halves. -/
structure cell_xyz where
  hi : Nat
  lo : Nat
deriving DecidableEq, Repr

/-- The type `cell_xyzm`: two 64-bit halves. -/
structure cell_xyzm where
  hi : Nat
  lo : Nat
deriving DecidableEq, Repr

/-- The function `cell_xy_encode`; a `cell_xy` is a `uint64_t`. -/
def cell_xy_encode (x y : ℚ) : Nat :=
  let a := to_uint32 (clip x * scale)
  let b := to_uint32 (clip y * scale)
  let ab := ((interleave a <<< 1) % 2 ^ 64) ||| interleave b
  ab

/-- The function `cell_xyzm_encode`. -/
def cell_xyzm_encode (x y z m : ℚ) : cell_xyzm :=
  let a := to_uint32 (clip x * scale)
  let b := to_uint32 (clip y * scale)
  let c := to_uint32 (clip z * scale)
  let d := to_uint32 (clip m * scale)
  let ac := ((interleave a <<< 1) % 2 ^ 64) ||| interleave c
  let bd := ((interleave b <<< 1) % 2 ^ 64) ||| interleave d
  let hi := ((interleave ((ac >>> 32) % 2 ^ 32) <<< 1) % 2 ^ 64)
              ||| interleave ((bd >>> 32) % 2 ^ 32)
  let lo := ((interleave (ac % 2 ^ 32) <<< 1) % 2 ^ 64) ||| interleave (bd % 2 ^ 32)
  { hi := hi, lo := lo }

/-- The function `cell_xyz_encode`. -/
def cell_xyz_encode (x y z : ℚ) : cell_xyz :=
  let xyzm := cell_xyzm_encode x y z 0
  { hi := xyzm.hi, lo := xyzm.lo }

/-- The function `cell_xy_decode`; the two output parameters are returned as a
pair `(x, y)`. -/
def cell_xy_decode (cell : Nat) : ℚ × ℚ :=
  let ab := cell
  let a := deinterleave (ab >>> 1)
  let b := deinterleave ab
  ((a : ℚ) / scale, (b : ℚ) / scale)

/-- The function `cell_xyzm_decode`; the four output parameters are returned as
`(x, y, z, m)`. -/
def cell_xyzm_decode (cell : cell_xyzm) : ℚ × ℚ × ℚ × ℚ :=
  let ac := ((deinterleave (cell.hi >>> 1) <<< 32) % 2 ^ 64) ||| deinterleave (cell.lo >>> 1)
  let bd := ((deinterleave cell.hi <<< 32) % 2 ^ 64) ||| deinterleave cell.lo
  let a := deinterleave (ac >>> 1)
  let b := deinterleave (bd >>> 1)
  let c := deinterleave ac
  let d := deinterleave bd
  ((a : ℚ) / scale, (b : ℚ) / scale, (c : ℚ) / scale, (d : ℚ) / scale)

/-- The function `cell_xyz_decode`; the local `m` is dropped. -/
def cell_xyz_decode (cell : cell_xyz) : ℚ × ℚ × ℚ :=
  let xyzm : cell_xyzm := { hi := cell.hi, lo := cell.lo }
  let r := cell_xyzm_decode xyzm
  (r.1, r.2.1, r.2.2.1)

/-! ## Comparison -/

/-- The function `cell_xy_compare`. -/
def cell_xy_compare (a b : Nat) : Int :=
  if a < b then -1 else if a > b then 1 else 0

/-- The function `cell_xyz_compare`. -/
def cell_xyz_compare (a b : cell_xyz) : Int :=
  if a.hi < b.hi then -1 else if a.hi > b.hi then 1 else
  if a.lo < b.lo then -1 else if a.lo > b.lo then 1 else 0

/-- The function `cell_xyzm_compare`. -/
def cell_xyzm_compare (a b : cell_xyzm) : Int :=
  if a.hi < b.hi then -1 else if a.hi > b.hi then 1 else
  if a.lo < b.lo then -1 else if a.lo > b.lo then 1 else 0

/-! ## Strings -/

/-- One `for (int i = ...; i < 64; i += 4) str[j++] = HEX[(word>>(60-i))&15]` loop.
The buffer is written front to back, so `str` is the part written so far and a
store at `j` appends.  The loop body runs 16 times; `fuel` bounds the number of
loop tests. -/
def string_loop (word : Nat) : Nat → Nat → List Char → List Char
  | 0, _, str => str
  | fuel + 1, i, str =>
    if i < 64 then
      string_loop word fuel (i + 4) (str ++ [HEX_at ((word >>> (60 - i)) &&& 15)])
    else str

/-- The function `cell_xy_string`: the characters stored in front of the NUL. -/
def cell_xy_string (cell : Nat) : List Char :=
  string_loop cell 17 0 []

/-- The function `cell_xyzm_string`: the characters stored in front of the NUL. -/
def cell_xyzm_string (cell : cell_xyzm) : List Char :=
  let str := string_loop cell.hi 17 0 []
  string_loop cell.lo 17 0 str

/-- The function `cell_xyz_string`. -/
def cell_xyz_string (cell : cell_xyz) : List Char :=
  let xyzm : cell_xyzm := { hi := cell.hi, lo := cell.lo }
  cell_xyzm_string xyzm

/-- The read `str[i]` of a C string whose characters are `str`: a character
code, the terminating NUL at index `str.length`, and nothing that the string
determines (`none`) past the terminator. -/
def str_at (str : List Char) (i : Nat) : Option Nat :=
  if i < str.length then some (str.getD i (Char.ofNat 0)).toNat
  else if i = str.length then some 0
  else none

/-- One `for (...; str[i] && i < lim; i++) cell = (cell << 4) | TBL[str[i]]`
loop, started at index `i` with accumulator `cell`.  The test reads `str[i]`
before it compares `i` with `lim`.  `fuel` bounds the number of loop tests;
`none` is a read that the string does not determine. -/
def from_string_loop (str : List Char) (lim : Nat) : Nat → Nat → Nat → Option Nat
  | 0, _, _ => none
  | fuel + 1, i, cell =>
    match str_at str i with
    | none => none
    | some ch =>
      if ch ≠ 0 ∧ i < lim then
        match TBL_at ch with
        | none => none
        | some t => from_string_loop str lim fuel (i + 1) (((cell <<< 4) % 2 ^ 64) ||| t)
      else some cell

/-- The function `cell_xy_from_string`; `none` as argument is the `NULL`
pointer. -/
def cell_xy_from_string (str : Option (List Char)) : Option Nat :=
  match str with
  | none => some 0
  | some s => from_string_loop s 16 17 0 0

/-- The function `cell_xyzm_from_string`; `none` as argument is the `NULL`
pointer. -/
def cell_xyzm_from_string (str : Option (List Char)) : Option cell_xyzm :=
  match str with
  | none => some { hi := 0, lo := 0 }
  | some s =>
    match from_string_loop s 16 17 0 0 with
    | none => none
    | some hi =>
      match from_string_loop s 32 17 16 0 with
      | none => none
      | some lo => some { hi := hi, lo := lo }

/-- The function `cell_xyz_from_string`. -/
def cell_xyz_from_string (str : Option (List Char)) : Option cell_xyz :=
  match cell_xyzm_from_string str with
  | none => none
  | some xyzm => some { lo := xyzm.lo, hi := xyzm.hi }

/-! ## Vocabulary of the statements -/

/-- Whether a character code is one of `0-9`, `a-f`, `A-F`. -/
def is_hex_digit (ch : Nat) : Bool :=
  (48 ≤ ch && ch ≤ 57) || (97 ≤ ch && ch ≤ 102) || (65 ≤ ch && ch ≤ 70)

/-- The value of a hexadecimal digit given by its character code (`0` for any
other code). -/
def hex_digit_value (ch : Nat) : Nat :=
  if 48 ≤ ch ∧ ch ≤ 57 then ch - 48
  else if 97 ≤ ch ∧ ch ≤ 102 then ch - 87
  else if 65 ≤ ch ∧ ch ≤ 70 then ch - 55
  else 0

/-- The number that a string of hexadecimal digits denotes in base 16. -/
def hex_number (s : List Char) : Nat :=
  s.foldl (fun n ch => 16 * n + hex_digit_value ch.toNat) 0

/-- The value that the table contributes for a character code: the digit value
for a hexadecimal digit, the filler `45` for any other code. -/
def table_value (ch : Nat) : Nat :=
  if is_hex_digit ch then hex_digit_value ch else 45

/-- The body of the parsing loops, `(cell << 4) | t`, on a 64-bit `cell`. -/
def shift_in (cell t : Nat) : Nat := ((cell <<< 4) % 2 ^ 64) ||| t

/-- The 128-bit number `hi * 2^64 + lo` of a cell. -/
def cell_number (cell : cell_xyzm) : Nat := cell.hi * 2 ^ 64 + cell.lo

/-! ## Bit level facts -/

theorem testBit_of_lt_two_pow_32 {v k : Nat} (h : v < 2 ^ 32) (hk : 32 ≤ k) :
    v.testBit k = false :=
  Nat.testBit_lt_two_pow (lt_of_lt_of_le h (Nat.pow_le_pow_right (by decide) hk))

theorem testBit_of_lt_two_pow_64 {m j : Nat} (hm : m < 2 ^ 64) (hj : ¬ j < 64) :
    m.testBit j = false :=
  Nat.testBit_lt_two_pow (lt_of_lt_of_le hm (Nat.pow_le_pow_right (by decide) (by omega)))

theorem mask5_bit (j : Nat) :
    (0x5555555555555555 : Nat).testBit j = decide (j < 64 ∧ j % 2 = 0) := by
  by_cases hj : j < 64
  · interval_cases j <;> decide
  · rw [testBit_of_lt_two_pow_64 (by decide) hj]; simp [hj]

theorem mask3_bit (j : Nat) :
    (0x3333333333333333 : Nat).testBit j = decide (j < 64 ∧ j % 4 < 2) := by
  by_cases hj : j < 64
  · interval_cases j <;> decide
  · rw [testBit_of_lt_two_pow_64 (by decide) hj]; simp [hj]

theorem mask0f_bit (j : Nat) :
    (0x0f0f0f0f0f0f0f0f : Nat).testBit j = decide (j < 64 ∧ j % 8 < 4) := by
  by_cases hj : j < 64
  · interval_cases j <;> decide
  · rw [testBit_of_lt_two_pow_64 (by decide) hj]; simp [hj]

theorem mask00ff_bit (j : Nat) :
    (0x00ff00ff00ff00ff : Nat).testBit j = decide (j < 64 ∧ j % 16 < 8) := by
  by_cases hj : j < 64
  · interval_cases j <;> decide
  · rw [testBit_of_lt_two_pow_64 (by decide) hj]; simp [hj]

theorem mask0000ffff_bit (j : Nat) :
    (0x0000ffff0000ffff : Nat).testBit j = decide (j < 64 ∧ j % 32 < 16) := by
  by_cases hj : j < 64
  · interval_cases j <;> decide
  · rw [testBit_of_lt_two_pow_64 (by decide) hj]; simp [hj]

theorem maskffffffff_bit (j : Nat) :
    (0x00000000ffffffff : Nat).testBit j = decide (j < 32) := by
  by_cases hj : j < 64
  · interval_cases j <;> decide
  · rw [testBit_of_lt_two_pow_64 (by decide) hj]; simp; omega

/-- A left shift inside a 64-bit word, bit by bit. -/
theorem shl_mod_bit (w k j : Nat) :
    ((w <<< k) % 18446744073709551616).testBit j
      = (decide (j < 64) && (decide (k ≤ j) && w.testBit (j - k))) := by
  show ((w <<< k) % 2 ^ 64).testBit j = _
  rw [Nat.testBit_mod_two_pow, Nat.testBit_shiftLeft]

theorem spread16_bit (v : Nat) (hv : v < 2 ^ 32) (j : Nat) :
    ((v ^^^ ((v <<< 16) % 2 ^ 64)) &&& 0x0000ffff0000ffff).testBit j
      = (decide (j < 64 ∧ j % 32 < 16) && v.testBit (j / 32 * 16 + j % 32)) := by
  by_cases hj : j < 64
  · interval_cases j <;>
      simp [-Nat.testBit_zero, shl_mod_bit, testBit_of_lt_two_pow_32 hv, mask0000ffff_bit]
  · simp [mask0000ffff_bit, hj]

theorem spread8_bit (w v : Nat)
    (h : ∀ j, w.testBit j
      = (decide (j < 64 ∧ j % 32 < 16) && v.testBit (j / 32 * 16 + j % 32)))
    (j : Nat) :
    ((w ^^^ ((w <<< 8) % 2 ^ 64)) &&& 0x00ff00ff00ff00ff).testBit j
      = (decide (j < 64 ∧ j % 16 < 8) && v.testBit (j / 16 * 8 + j % 16)) := by
  by_cases hj : j < 64
  · interval_cases j <;> simp [-Nat.testBit_zero, shl_mod_bit, h, mask00ff_bit]
  · simp [mask00ff_bit, hj]

theorem spread4_bit (w v : Nat)
    (h : ∀ j, w.testBit j
      = (decide (j < 64 ∧ j % 16 < 8) && v.testBit (j / 16 * 8 + j % 16)))
    (j : Nat) :
    ((w ^^^ ((w <<< 4) % 2 ^ 64)) &&& 0x0f0f0f0f0f0f0f0f).testBit j
      = (decide (j < 64 ∧ j % 8 < 4) && v.testBit (j / 8 * 4 + j % 8)) := by
  by_cases hj : j < 64
  · interval_cases j <;> simp [-Nat.testBit_zero, shl_mod_bit, h, mask0f_bit]
  · simp [mask0f_bit, hj]

theorem spread2_bit (w v : Nat)
    (h : ∀ j, w.testBit j
      = (decide (j < 64 ∧ j % 8 < 4) && v.testBit (j / 8 * 4 + j % 8)))
    (j : Nat) :
    ((w ^^^ ((w <<< 2) % 2 ^ 64)) &&& 0x3333333333333333).testBit j
      = (decide (j < 64 ∧ j % 4 < 2) && v.testBit (j / 4 * 2 + j % 4)) := by
  by_cases hj : j < 64
  · interval_cases j <;> simp [-Nat.testBit_zero, shl_mod_bit, h, mask3_bit]
  · simp [mask3_bit, hj]

theorem spread1_bit (w v : Nat)
    (h : ∀ j, w.testBit j
      = (decide (j < 64 ∧ j % 4 < 2) && v.testBit (j / 4 * 2 + j % 4)))
    (j : Nat) :
    ((w ^^^ ((w <<< 1) % 2 ^ 64)) &&& 0x5555555555555555).testBit j
      = (decide (j < 64 ∧ j % 2 = 0) && v.testBit (j / 2)) := by
  by_cases hj : j < 64
  · interval_cases j <;> simp [-Nat.testBit_zero, shl_mod_bit, h, mask5_bit]
  · simp [mask5_bit, hj]

/-- Bit `j` of `interleave v` is bit `j / 2` of `v` when `j` is even, and clear
when `j` is odd. -/
theorem interleave_bit (v : Nat) (hv : v < 2 ^ 32) (j : Nat) :
    (interleave v).testBit j = (decide (j < 64 ∧ j % 2 = 0) && v.testBit (j / 2)) :=
  spread1_bit _ v (spread2_bit _ v (spread4_bit _ v (spread8_bit _ v (spread16_bit v hv)))) j

/-- Bit `i` of `deinterleave w` is bit `2 * i` of `w`, for `i < 32`. -/
theorem deinterleave_bit (w i : Nat) :
    (deinterleave w).testBit i = (decide (i < 32) && w.testBit (2 * i)) := by
  unfold deinterleave
  simp only [Nat.testBit_mod_two_pow]
  by_cases hi : i < 32
  · interval_cases i <;>
      simp [-Nat.testBit_zero, mask5_bit, mask3_bit, mask0f_bit, mask00ff_bit,
        mask0000ffff_bit, maskffffffff_bit]
  · simp [hi]

theorem deinterleave_lt (w : Nat) : deinterleave w < 2 ^ 32 :=
  Nat.mod_lt _ (by decide)

theorem interleave_lt (v : Nat) : interleave v < 2 ^ 64 :=
  lt_of_le_of_lt Nat.and_le_right (by decide)

/-- Bits of the word `interleave(a)<<1 | interleave(b)`: the odd bits are those
of `a`, the even bits those of `b`. -/
theorem pair_bit (a b : Nat) (ha : a < 2 ^ 32) (hb : b < 2 ^ 32) (j : Nat) :
    (((interleave a <<< 1) % 2 ^ 64) ||| interleave b).testBit j
      = (decide (j < 64) && (if j % 2 = 1 then a.testBit (j / 2) else b.testBit (j / 2))) := by
  rw [Nat.testBit_or, Nat.testBit_mod_two_pow, Nat.testBit_shiftLeft,
    interleave_bit a ha, interleave_bit b hb]
  by_cases hj : j < 64
  · rcases Nat.mod_two_eq_zero_or_one j with h0 | h1
    · have h2 : (j - 1) % 2 = 0 → ¬ 1 ≤ j := by omega
      by_cases h3 : 1 ≤ j
      · have : ¬ (j - 1) % 2 = 0 := fun h => h2 h h3
        simp [hj, h0, this]
      · simp [hj, h0, h3]
    · have h2 : (j - 1) % 2 = 0 := by omega
      have h3 : 1 ≤ j := by omega
      have h4 : j - 1 < 64 := by omega
      have h5 : (j - 1) / 2 = j / 2 := by omega
      simp [hj, h1, h2, h3, h4, h5]
  · simp [hj]

theorem pair_lt (a b : Nat) :
    ((interleave a <<< 1) % 2 ^ 64) ||| interleave b < 2 ^ 64 :=
  Nat.or_lt_two_pow (Nat.mod_lt _ (by decide)) (interleave_lt b)

/-- The odd bits of a pair word give back the first component. -/
theorem deinterleave_pair_hi (a b : Nat) (ha : a < 2 ^ 32) (hb : b < 2 ^ 32) :
    deinterleave ((((interleave a <<< 1) % 2 ^ 64) ||| interleave b) >>> 1) = a := by
  apply Nat.eq_of_testBit_eq
  intro i
  rw [deinterleave_bit, Nat.testBit_shiftRight, pair_bit a b ha hb]
  by_cases hi : i < 32
  · have h1 : 1 + 2 * i < 64 := by omega
    have h2 : (1 + 2 * i) % 2 = 1 := by omega
    have h3 : (1 + 2 * i) / 2 = i := by omega
    simp [hi, h1, h2, h3]
  · simp [hi, testBit_of_lt_two_pow_32 ha (Nat.le_of_not_lt hi)]

/-- The even bits of a pair word give back the second component. -/
theorem deinterleave_pair_lo (a b : Nat) (ha : a < 2 ^ 32) (hb : b < 2 ^ 32) :
    deinterleave (((interleave a <<< 1) % 2 ^ 64) ||| interleave b) = b := by
  apply Nat.eq_of_testBit_eq
  intro i
  rw [deinterleave_bit, pair_bit a b ha hb]
  by_cases hi : i < 32
  · have h1 : 2 * i < 64 := by omega
    have h2 : ¬ (2 * i) % 2 = 1 := by omega
    have h3 : (2 * i) / 2 = i := by omega
    simp [hi, h1, h2, h3]
  · simp [hi, testBit_of_lt_two_pow_32 hb (Nat.le_of_not_lt hi)]

/-! ## Fixed point conversion -/

theorem MAX_COORD_eq : MAX_COORD = 1 - 1 / 2 ^ 53 := by
  norm_num [MAX_COORD]

theorem scale_eq : scale = 2 ^ 32 := by
  norm_num [scale, Nat.shiftLeft_eq]

theorem clip_nonneg (x : ℚ) : 0 ≤ clip x := by
  unfold clip
  have hM : (0 : ℚ) ≤ MAX_COORD := by rw [MAX_COORD_eq]; norm_num
  split_ifs with h1 h2
  · exact le_refl _
  · exact hM
  · exact not_lt.mp h1

theorem clip_le_max (x : ℚ) : clip x ≤ MAX_COORD := by
  unfold clip
  have hM : (0 : ℚ) ≤ MAX_COORD := by rw [MAX_COORD_eq]; norm_num
  split_ifs with h1 h2
  · exact hM
  · exact le_refl _
  · exact not_lt.mp h2

theorem clip_scale_lt (x : ℚ) : clip x * scale < 2 ^ 32 := by
  have h := clip_le_max x
  rw [MAX_COORD_eq] at h
  rw [scale_eq]
  have h1 : clip x < 1 := lt_of_le_of_lt h (by norm_num)
  calc clip x * 2 ^ 32 < 1 * 2 ^ 32 := by
        apply mul_lt_mul_of_pos_right h1 (by norm_num)
    _ = 2 ^ 32 := one_mul _

theorem clip_scale_nonneg (x : ℚ) : 0 ≤ clip x * scale := by
  rw [scale_eq]
  exact mul_nonneg (clip_nonneg x) (by norm_num)

/-- On `[0, 2^32)` the conversion to `uint32_t` is the floor, and nothing wraps. -/
theorem to_uint32_eq_floor (d : ℚ) (h0 : 0 ≤ d) (h1 : d < 2 ^ 32) :
    ((to_uint32 d : Nat) : Int) = ⌊d⌋ ∧ to_uint32 d < 2 ^ 32 := by
  have hf0 : 0 ≤ ⌊d⌋ := Int.floor_nonneg.mpr h0
  have hf1 : ⌊d⌋ < 2 ^ 32 := by
    apply Int.floor_lt.mpr
    exact_mod_cast h1
  have hmod : ⌊d⌋ % 2 ^ 32 = ⌊d⌋ := Int.emod_eq_of_lt hf0 hf1
  have e : ((to_uint32 d : Nat) : Int) = ⌊d⌋ := by
    unfold to_uint32 trunc
    rw [if_pos h0, hmod, Int.toNat_of_nonneg hf0]
  refine ⟨e, ?_⟩
  have : ((to_uint32 d : Nat) : Int) < 2 ^ 32 := by rw [e]; exact hf1
  exact_mod_cast this

/-- The fixed point value of a coordinate is below `2^32`. -/
theorem fixed_lt (x : ℚ) : to_uint32 (clip x * scale) < 2 ^ 32 :=
  (to_uint32_eq_floor _ (clip_scale_nonneg x) (clip_scale_lt x)).2

/-- The fixed point value of a coordinate, divided by `2^32`, is at most the
clamped coordinate and less than one bucket below it. -/
theorem fixed_bucket (x : ℚ) :
    0 ≤ clip x - (to_uint32 (clip x * scale) : ℚ) / scale
      ∧ clip x - (to_uint32 (clip x * scale) : ℚ) / scale < 1 / 2 ^ 32 := by
  have e := (to_uint32_eq_floor _ (clip_scale_nonneg x) (clip_scale_lt x)).1
  have eq : ((to_uint32 (clip x * scale) : Nat) : ℚ) = ((⌊clip x * scale⌋ : Int) : ℚ) := by
    rw [← e]; simp
  rw [eq]
  have hle : ((⌊clip x * scale⌋ : Int) : ℚ) ≤ clip x * scale := Int.floor_le _
  have hlt : clip x * scale < ((⌊clip x * scale⌋ : Int) : ℚ) + 1 := Int.lt_floor_add_one _
  rw [scale_eq] at hle hlt ⊢
  have hp : (0 : ℚ) < 2 ^ 32 := by norm_num
  constructor
  · rw [sub_nonneg, div_le_iff₀ hp]; exact hle
  · rw [sub_lt_iff_lt_add, ← sub_lt_iff_lt_add', lt_div_iff₀ hp]
    have : (clip x - 1 / 2 ^ 32) * 2 ^ 32 = clip x * 2 ^ 32 - 1 := by ring
    rw [this]; linarith

/-- A decoded fixed point value lies in `[0, 1)`. -/
theorem unit_range (a : Nat) (ha : a < 2 ^ 32) :
    0 ≤ (a : ℚ) / scale ∧ (a : ℚ) / scale < 1 := by
  rw [scale_eq]
  have hp : (0 : ℚ) < 2 ^ 32 := by norm_num
  refine ⟨div_nonneg (Nat.cast_nonneg a) hp.le, ?_⟩
  rw [div_lt_one hp]
  exact_mod_cast ha

/-! ## Decoding an encoded cell -/

/-- A 64-bit word is its upper 32 bits, shifted back, joined with its lower 32
bits. -/
theorem split_join (w : Nat) (hw : w < 2 ^ 64) :
    ((((w >>> 32) % 2 ^ 32) <<< 32) % 2 ^ 64) ||| (w % 2 ^ 32) = w := by
  apply Nat.eq_of_testBit_eq
  intro j
  rw [Nat.testBit_or, Nat.testBit_mod_two_pow, Nat.testBit_shiftLeft,
    Nat.testBit_mod_two_pow, Nat.testBit_shiftRight, Nat.testBit_mod_two_pow]
  by_cases h1 : j < 32
  · have : ¬ j ≥ 32 := by omega
    simp [h1, this]
  · by_cases h2 : j < 64
    · have h3 : j ≥ 32 := by omega
      have h4 : j - 32 < 32 := by omega
      have h5 : 32 + (j - 32) = j := by omega
      simp [h1, h2, h3, h4, h5]
    · simp [h1, h2, testBit_of_lt_two_pow_64 hw h2]

/-- Word level round trip of the 4D layout: the two stages of `cell_xyzm_decode`
undo the two stages of `cell_xyzm_encode`. -/
theorem words_roundtrip (a b c d : Nat) (ha : a < 2 ^ 32) (hb : b < 2 ^ 32)
    (hc : c < 2 ^ 32) (hd : d < 2 ^ 32)
    (ac bd hi lo : Nat)
    (hac : ac = ((interleave a <<< 1) % 2 ^ 64) ||| interleave c)
    (hbd : bd = ((interleave b <<< 1) % 2 ^ 64) ||| interleave d)
    (hhi : hi = ((interleave ((ac >>> 32) % 2 ^ 32) <<< 1) % 2 ^ 64)
              ||| interleave ((bd >>> 32) % 2 ^ 32))
    (hlo : lo = ((interleave (ac % 2 ^ 32) <<< 1) % 2 ^ 64) ||| interleave (bd % 2 ^ 32)) :
    ((deinterleave (hi >>> 1) <<< 32) % 2 ^ 64) ||| deinterleave (lo >>> 1) = ac
      ∧ ((deinterleave hi <<< 32) % 2 ^ 64) ||| deinterleave lo = bd
      ∧ deinterleave (ac >>> 1) = a ∧ deinterleave (bd >>> 1) = b
      ∧ deinterleave ac = c ∧ deinterleave bd = d := by
  have m32 : ∀ n : Nat, n % 2 ^ 32 < 2 ^ 32 := fun n => Nat.mod_lt _ (by decide)
  have lac : ac < 2 ^ 64 := by rw [hac]; exact pair_lt a c
  have lbd : bd < 2 ^ 64 := by rw [hbd]; exact pair_lt b d
  refine ⟨?_, ?_, ?_, ?_, ?_, ?_⟩
  · rw [hhi, hlo, deinterleave_pair_hi _ _ (m32 _) (m32 _),
      deinterleave_pair_hi _ _ (m32 _) (m32 _), split_join ac lac]
  · rw [hhi, hlo, deinterleave_pair_lo _ _ (m32 _) (m32 _),
      deinterleave_pair_lo _ _ (m32 _) (m32 _), split_join bd lbd]
  · rw [hac, deinterleave_pair_hi a c ha hc]
  · rw [hbd, deinterleave_pair_hi b d hb hd]
  · rw [hac, deinterleave_pair_lo a c ha hc]
  · rw [hbd, deinterleave_pair_lo b d hb hd]

/-- Decoding an encoded 2D cell returns the two fixed point values over `2^32`. -/
theorem cell_xy_decode_encode (x y : ℚ) :
    cell_xy_decode (cell_xy_encode x y)
      = ((to_uint32 (clip x * scale) : ℚ) / scale, (to_uint32 (clip y * scale) : ℚ) / scale) := by
  simp only [cell_xy_decode, cell_xy_encode]
  rw [deinterleave_pair_hi _ _ (fixed_lt x) (fixed_lt y),
    deinterleave_pair_lo _ _ (fixed_lt x) (fixed_lt y)]

/-- Decoding an encoded 4D cell returns the four fixed point values over `2^32`. -/
theorem cell_xyzm_decode_encode (x y z m : ℚ) :
    cell_xyzm_decode (cell_xyzm_encode x y z m)
      = ((to_uint32 (clip x * scale) : ℚ) / scale, (to_uint32 (clip y * scale) : ℚ) / scale,
         (to_uint32 (clip z * scale) : ℚ) / scale, (to_uint32 (clip m * scale) : ℚ) / scale) := by
  obtain ⟨h1, h2, h3, h4, h5, h6⟩ :=
    words_roundtrip _ _ _ _ (fixed_lt x) (fixed_lt y) (fixed_lt z) (fixed_lt m)
      _ _ _ _ rfl rfl rfl rfl
  simp only [cell_xyzm_decode, cell_xyzm_encode]
  rw [h1, h2, h3, h4, h5, h6]

/-! ## Strings -/

theorem nibble_lt (n : Nat) : n &&& 15 < 16 :=
  Nat.lt_succ_of_le Nat.and_le_right

set_option maxRecDepth 8192 in
/-- Every digit of `HEX` is a non-NUL character that `TBL` maps back to its
index. -/
theorem TBL_at_HEX_at (n : Nat) (hn : n < 16) :
    (HEX_at n).toNat ≠ 0 ∧ TBL_at (HEX_at n).toNat = some n := by
  interval_cases n <;> decide

/-- The string loop appends sixteen digits, most significant nibble first. -/
theorem string_loop_eq (w : Nat) (str : List Char) :
    string_loop w 17 0 str
      = str ++ (List.range 16).map (fun k => HEX_at ((w >>> (60 - 4 * k)) &&& 15)) := by
  simp [string_loop, List.range, List.range.loop]

theorem cell_xy_string_eq (c : Nat) :
    cell_xy_string c = (List.range 16).map (fun k => HEX_at ((c >>> (60 - 4 * k)) &&& 15)) := by
  rw [cell_xy_string, string_loop_eq, List.nil_append]

theorem cell_xyzm_string_eq (cell : cell_xyzm) :
    cell_xyzm_string cell = cell_xy_string cell.hi ++ cell_xy_string cell.lo := by
  simp only [cell_xyzm_string]
  rw [string_loop_eq, string_loop_eq, cell_xy_string_eq, cell_xy_string_eq, List.nil_append]

theorem cell_xy_string_length (c : Nat) : (cell_xy_string c).length = 16 := by
  rw [cell_xy_string_eq]; simp

theorem cell_xy_string_getD (c k : Nat) (hk : k < 16) :
    (cell_xy_string c).getD k (Char.ofNat 0) = HEX_at ((c >>> (60 - 4 * k)) &&& 15) := by
  rw [cell_xy_string_eq, List.getD_eq_getElem?_getD, List.getElem?_map,
    List.getElem?_range hk]
  rfl

/-- One step of the parsing loop on the digits of a word: shifting in the next
nibble of `w` turns `w >> s` into `w >> (s - 4)`. -/
theorem shift_in_nibble (w s : Nat) (hw : w < 2 ^ 64) (hs : 4 ≤ s) :
    (((w >>> s) <<< 4) % 2 ^ 64) ||| ((w >>> (s - 4)) &&& 15) = w >>> (s - 4) := by
  apply Nat.eq_of_testBit_eq
  intro j
  have h15 : (15 : Nat).testBit j = decide (j < 4) := Nat.testBit_two_pow_sub_one 4 j
  rw [Nat.testBit_or, Nat.testBit_mod_two_pow, Nat.testBit_shiftLeft, Nat.testBit_and,
    Nat.testBit_shiftRight, Nat.testBit_shiftRight, h15]
  by_cases h1 : j < 4
  · have : ¬ j ≥ 4 := by omega
    simp [h1, this]
  · by_cases h2 : j < 64
    · have h3 : j ≥ 4 := by omega
      have h4 : s + (j - 4) = s - 4 + j := by omega
      simp [h1, h2, h3, h4]
    · have h3 : ¬ (s - 4 + j) < 64 := by omega
      simp [h1, h2, testBit_of_lt_two_pow_64 hw h3]

/-- The parsing loop over sixteen characters that are the digits of `w`, read
from index `base`, started after `k` of them: it returns `w`. -/
theorem from_string_loop_digits (s : List Char) (base w : Nat) (hw : w < 2 ^ 64)
    (hs : ∀ k, k < 16 →
      str_at s (base + k) = some (HEX_at ((w >>> (60 - 4 * k)) &&& 15)).toNat)
    (hend : ∃ ch, str_at s (base + 16) = some ch) :
    ∀ n k, n + k = 16 →
      from_string_loop s (base + 16) (n + 1) (base + k) (w >>> (64 - 4 * k)) = some w := by
  intro n
  induction n with
  | zero =>
    intro k hk
    obtain ⟨ch, hch⟩ := hend
    have hk16 : k = 16 := by omega
    subst hk16
    simp [from_string_loop, hch]
  | succ n ih =>
    intro k hk
    have hk16 : k < 16 := by omega
    obtain ⟨h0, hT⟩ := TBL_at_HEX_at _ (nibble_lt (w >>> (60 - 4 * k)))
    have step := shift_in_nibble w (64 - 4 * k) hw (by omega)
    have e1 : 64 - 4 * k - 4 = 60 - 4 * k := by omega
    have e2 : 64 - 4 * (k + 1) = 60 - 4 * k := by omega
    rw [e1] at step
    have hrec := ih (k + 1) (by omega)
    rw [e2] at hrec
    rw [from_string_loop, hs k hk16]
    simp only [ne_eq, h0, not_false_eq_true, true_and, hT]
    rw [if_pos (by omega), step]
    exact hrec

/-- Parsing the string of a 64-bit cell returns the cell. -/
theorem cell_xy_from_string_string (c : Nat) (hc : c < 2 ^ 64) :
    cell_xy_from_string (some (cell_xy_string c)) = some c := by
  have hlen := cell_xy_string_length c
  have h := from_string_loop_digits (cell_xy_string c) 0 c hc
    (by
      intro k hk
      rw [Nat.zero_add, str_at, if_pos (by omega), cell_xy_string_getD c k hk])
    ⟨0, by rw [Nat.zero_add, str_at, if_neg (by omega), if_pos hlen.symm]⟩
    16 0 rfl
  have e : c >>> (64 - 4 * 0) = 0 := by
    rw [Nat.shiftRight_eq_div_pow]
    exact Nat.div_eq_of_lt hc
  rw [e] at h
  exact h

/-- Parsing the string of a 128-bit cell returns both halves. -/
theorem cell_xyzm_from_string_string (cell : cell_xyzm) (hhi : cell.hi < 2 ^ 64)
    (hlo : cell.lo < 2 ^ 64) :
    cell_xyzm_from_string (some (cell_xyzm_string cell)) = some cell := by
  have l1 := cell_xy_string_length cell.hi
  have l2 := cell_xy_string_length cell.lo
  have e0 : ∀ c : Nat, c < 2 ^ 64 → c >>> (64 - 4 * 0) = 0 := by
    intro c hc
    rw [Nat.shiftRight_eq_div_pow]
    exact Nat.div_eq_of_lt hc
  have hA := from_string_loop_digits (cell_xyzm_string cell) 0 cell.hi hhi
    (by
      intro k hk
      rw [Nat.zero_add, str_at, if_pos (by rw [cell_xyzm_string_eq, List.length_append]; omega),
        cell_xyzm_string_eq, List.getD_append _ _ _ _ (by omega),
        cell_xy_string_getD _ k hk])
    ⟨((cell_xyzm_string cell).getD 16 (Char.ofNat 0)).toNat, by
      rw [Nat.zero_add, str_at, if_pos (by rw [cell_xyzm_string_eq, List.length_append]; omega)]⟩
    16 0 rfl
  have hB := from_string_loop_digits (cell_xyzm_string cell) 16 cell.lo hlo
    (by
      intro k hk
      rw [str_at, if_pos (by rw [cell_xyzm_string_eq, List.length_append]; omega),
        cell_xyzm_string_eq, List.getD_append_right _ _ _ _ (by omega), l1,
        Nat.add_sub_cancel_left, cell_xy_string_getD _ k hk])
    ⟨0, by
      rw [str_at, if_neg (by rw [cell_xyzm_string_eq, List.length_append]; omega),
        if_pos (by rw [cell_xyzm_string_eq, List.length_append]; omega)]⟩
    16 0 rfl
  rw [e0 _ hhi] at hA
  rw [e0 _ hlo] at hB
  simp only [Nat.zero_add, Nat.add_zero] at hA hB
  simp only [cell_xyzm_from_string, hA, hB]

/-! ## Round trips -/

/-- On `[0, 1)` the clamp moves a coordinate down by less than `2^-53`. -/
theorem clip_close (x : ℚ) (h0 : 0 ≤ x) (h1 : x < 1) :
    0 ≤ x - clip x ∧ x - clip x < 1 / 2 ^ 53 := by
  unfold clip
  rw [if_neg (not_lt.mpr h0)]
  split_ifs with h
  · rw [MAX_COORD_eq] at h ⊢
    constructor <;> linarith
  · simp

/-- A coordinate of `[0, 1)` and its fixed point value over `2^32` differ by
less than `1e-5`. -/
theorem fixed_close (x : ℚ) (h0 : 0 ≤ x) (h1 : x < 1) :
    |x - (to_uint32 (clip x * scale) : ℚ) / scale| < 1 / 10 ^ 5 := by
  obtain ⟨c0, c1⟩ := clip_close x h0 h1
  obtain ⟨b0, b1⟩ := fixed_bucket x
  have e1 : (1 : ℚ) / 2 ^ 53 + 1 / 2 ^ 32 < 1 / 10 ^ 5 := by norm_num
  rw [abs_lt]
  constructor <;> linarith

/-- C1: for all coordinates `x`, `y`, the pair decoded from `cell_xy_encode x y`
lies in `[0, 1)` and each component is at most the clamped input and less than
`2^-32` below it. -/
theorem cell_xy_roundtrip_bucket (x y : ℚ) :
    (0 ≤ (cell_xy_decode (cell_xy_encode x y)).1
        ∧ (cell_xy_decode (cell_xy_encode x y)).1 < 1)
      ∧ (0 ≤ (cell_xy_decode (cell_xy_encode x y)).2
        ∧ (cell_xy_decode (cell_xy_encode x y)).2 < 1)
      ∧ (0 ≤ clip x - (cell_xy_decode (cell_xy_encode x y)).1
        ∧ clip x - (cell_xy_decode (cell_xy_encode x y)).1 < 1 / 2 ^ 32)
      ∧ (0 ≤ clip y - (cell_xy_decode (cell_xy_encode x y)).2
        ∧ clip y - (cell_xy_decode (cell_xy_encode x y)).2 < 1 / 2 ^ 32) := by
  rw [cell_xy_decode_encode]
  exact ⟨unit_range _ (fixed_lt x), unit_range _ (fixed_lt y), fixed_bucket x, fixed_bucket y⟩

/-- C2: for `x`, `y`, `z`, `m` in `[0, 1)`, each coordinate decoded from
`cell_xyzm_encode x y z m` is within `1e-5` of its input, and so is each
coordinate decoded from `cell_xyz_encode x y z`. -/
theorem cell_xyzm_roundtrip_close (x y z m : ℚ)
    (hx : 0 ≤ x ∧ x < 1) (hy : 0 ≤ y ∧ y < 1) (hz : 0 ≤ z ∧ z < 1) (hm : 0 ≤ m ∧ m < 1) :
    (|x - (cell_xyzm_decode (cell_xyzm_encode x y z m)).1| < 1 / 10 ^ 5
      ∧ |y - (cell_xyzm_decode (cell_xyzm_encode x y z m)).2.1| < 1 / 10 ^ 5
      ∧ |z - (cell_xyzm_decode (cell_xyzm_encode x y z m)).2.2.1| < 1 / 10 ^ 5
      ∧ |m - (cell_xyzm_decode (cell_xyzm_encode x y z m)).2.2.2| < 1 / 10 ^ 5)
    ∧ (|x - (cell_xyz_decode (cell_xyz_encode x y z)).1| < 1 / 10 ^ 5
      ∧ |y - (cell_xyz_decode (cell_xyz_encode x y z)).2.1| < 1 / 10 ^ 5
      ∧ |z - (cell_xyz_decode (cell_xyz_encode x y z)).2.2| < 1 / 10 ^ 5) := by
  have e3 : cell_xyz_decode (cell_xyz_encode x y z)
      = ((cell_xyzm_decode (cell_xyzm_encode x y z 0)).1,
         (cell_xyzm_decode (cell_xyzm_encode x y z 0)).2.1,
         (cell_xyzm_decode (cell_xyzm_encode x y z 0)).2.2.1) := rfl
  rw [e3, cell_xyzm_decode_encode, cell_xyzm_decode_encode]
  exact ⟨⟨fixed_close x hx.1 hx.2, fixed_close y hy.1 hy.2, fixed_close z hz.1 hz.2,
    fixed_close m hm.1 hm.2⟩,
    fixed_close x hx.1 hx.2, fixed_close y hy.1 hy.2, fixed_close z hz.1 hz.2⟩

/-- C2 at `x = 1/2`, `y = 1/4`, `z = 1/8`, `m = 3/4`. -/
theorem cell_xyzm_roundtrip_close_witness :
    ((0 : ℚ) ≤ 1 / 2 ∧ (1 / 2 : ℚ) < 1)
    ∧ (|(1 / 2 : ℚ) - (cell_xyzm_decode (cell_xyzm_encode (1 / 2) (1 / 4) (1 / 8) (3 / 4))).1|
        < 1 / 10 ^ 5
      ∧ |(1 / 4 : ℚ) - (cell_xyzm_decode (cell_xyzm_encode (1 / 2) (1 / 4) (1 / 8) (3 / 4))).2.1|
        < 1 / 10 ^ 5
      ∧ |(1 / 8 : ℚ) - (cell_xyzm_decode (cell_xyzm_encode (1 / 2) (1 / 4) (1 / 8) (3 / 4))).2.2.1|
        < 1 / 10 ^ 5
      ∧ |(3 / 4 : ℚ) - (cell_xyzm_decode (cell_xyzm_encode (1 / 2) (1 / 4) (1 / 8) (3 / 4))).2.2.2|
        < 1 / 10 ^ 5)
    ∧ (|(1 / 2 : ℚ) - (cell_xyz_decode (cell_xyz_encode (1 / 2) (1 / 4) (1 / 8))).1| < 1 / 10 ^ 5
      ∧ |(1 / 4 : ℚ) - (cell_xyz_decode (cell_xyz_encode (1 / 2) (1 / 4) (1 / 8))).2.1|
        < 1 / 10 ^ 5
      ∧ |(1 / 8 : ℚ) - (cell_xyz_decode (cell_xyz_encode (1 / 2) (1 / 4) (1 / 8))).2.2|
        < 1 / 10 ^ 5) :=
  ⟨by norm_num,
    cell_xyzm_roundtrip_close (1 / 2) (1 / 4) (1 / 8) (3 / 4)
      (by norm_num) (by norm_num) (by norm_num) (by norm_num)⟩

/-- C3: the string of a 64-bit cell parses back to the cell, and the string of
a 128-bit cell parses back to the same `hi` and `lo`, for the `xyzm` and for
the `xyz` functions. -/
theorem string_roundtrip (c hi lo : Nat) (hc : c < 2 ^ 64) (hhi : hi < 2 ^ 64)
    (hlo : lo < 2 ^ 64) :
    cell_xy_from_string (some (cell_xy_string c)) = some c
      ∧ cell_xyzm_from_string (some (cell_xyzm_string { hi := hi, lo := lo }))
          = some { hi := hi, lo := lo }
      ∧ cell_xyz_from_string (some (cell_xyz_string { hi := hi, lo := lo }))
          = some { hi := hi, lo := lo } := by
  refine ⟨cell_xy_from_string_string c hc, cell_xyzm_from_string_string _ hhi hlo, ?_⟩
  simp only [cell_xyz_from_string, cell_xyz_string]
  rw [cell_xyzm_from_string_string _ hhi hlo]

set_option maxRecDepth 8192 in
/-- C3 at the cells `0x0123456789abcdef` and `(0xfedcba9876543210, 0x0f1e2d3c4b5a6978)`:
the strings are evaluated and parsed back. -/
theorem string_roundtrip_witness :
    cell_xy_string 0x0123456789abcdef = "0123456789abcdef".toList
    ∧ cell_xy_from_string (some "0123456789abcdef".toList) = some 0x0123456789abcdef
    ∧ (cell_xy_from_string (some (cell_xy_string 0x0123456789abcdef)) = some 0x0123456789abcdef
      ∧ cell_xyzm_from_string
          (some (cell_xyzm_string { hi := 0xfedcba9876543210, lo := 0x0f1e2d3c4b5a6978 }))
          = some { hi := 0xfedcba9876543210, lo := 0x0f1e2d3c4b5a6978 }
      ∧ cell_xyz_from_string
          (some (cell_xyz_string { hi := 0xfedcba9876543210, lo := 0x0f1e2d3c4b5a6978 }))
          = some { hi := 0xfedcba9876543210, lo := 0x0f1e2d3c4b5a6978 }) :=
  ⟨by decide, by decide,
    string_roundtrip 0x0123456789abcdef 0xfedcba9876543210 0x0f1e2d3c4b5a6978
      (by decide) (by decide) (by decide)⟩

/-- C4: for every 32-bit `v`, `deinterleave (interleave v) = v`. -/
theorem deinterleave_interleave (v : Nat) (hv : v < 2 ^ 32) :
    deinterleave (interleave v) = v := by
  apply Nat.eq_of_testBit_eq
  intro i
  rw [deinterleave_bit, interleave_bit v hv]
  by_cases hi : i < 32
  · have h1 : 2 * i < 64 := by omega
    have h2 : (2 * i) % 2 = 0 := by omega
    have h3 : (2 * i) / 2 = i := by omega
    simp [hi, h1, h2, h3]
  · simp [hi, testBit_of_lt_two_pow_32 hv (Nat.le_of_not_lt hi)]

/-- C4 at `v = 0xdeadbeef`. -/
theorem deinterleave_interleave_witness :
    0xdeadbeef < 2 ^ 32 ∧ interleave 0xdeadbeef = 0x5154445145545455
      ∧ deinterleave (interleave 0xdeadbeef) = 0xdeadbeef :=
  ⟨by decide, by decide, deinterleave_interleave 0xdeadbeef (by decide)⟩

/-! ## Comparison -/

theorem cell_xy_compare_order (a b c : Nat) :
    (cell_xy_compare a b = -1 ∨ cell_xy_compare a b = 0 ∨ cell_xy_compare a b = 1)
      ∧ (cell_xy_compare a b = 0 ↔ a = b)
      ∧ cell_xy_compare a b = -cell_xy_compare b a
      ∧ (cell_xy_compare a b ≤ 0 → cell_xy_compare b c ≤ 0 → cell_xy_compare a c ≤ 0) := by
  refine ⟨?_, ⟨?_, ?_⟩, ?_, ?_⟩
  all_goals
    simp only [cell_xy_compare]
    split_ifs <;> first | omega | (intros; contradiction)

theorem cell_xyzm_compare_order (u v w : cell_xyzm) :
    (cell_xyzm_compare u v = -1 ∨ cell_xyzm_compare u v = 0 ∨ cell_xyzm_compare u v = 1)
      ∧ (cell_xyzm_compare u v = 0 ↔ (u.hi = v.hi ∧ u.lo = v.lo))
      ∧ cell_xyzm_compare u v = -cell_xyzm_compare v u
      ∧ (cell_xyzm_compare u v ≤ 0 → cell_xyzm_compare v w ≤ 0 →
          cell_xyzm_compare u w ≤ 0) := by
  refine ⟨?_, ⟨?_, ?_⟩, ?_, ?_⟩
  all_goals
    simp only [cell_xyzm_compare]
    split_ifs <;> first | omega | (intros; contradiction)

theorem cell_xyz_compare_order (p q r : cell_xyz) :
    (cell_xyz_compare p q = -1 ∨ cell_xyz_compare p q = 0 ∨ cell_xyz_compare p q = 1)
      ∧ (cell_xyz_compare p q = 0 ↔ (p.hi = q.hi ∧ p.lo = q.lo))
      ∧ cell_xyz_compare p q = -cell_xyz_compare q p
      ∧ (cell_xyz_compare p q ≤ 0 → cell_xyz_compare q r ≤ 0 → cell_xyz_compare p r ≤ 0) := by
  refine ⟨?_, ⟨?_, ?_⟩, ?_, ?_⟩
  all_goals
    simp only [cell_xyz_compare]
    split_ifs <;> first | omega | (intros; contradiction)

/-- C5: each of the three compare functions returns `-1`, `0` or `1`; returns
`0` exactly on equal cells; changes sign when its arguments are swapped; and
`compare a b ≤ 0` with `compare b c ≤ 0` gives `compare a c ≤ 0`. -/
theorem compare_order (a b c : Nat) (p q r : cell_xyz) (u v w : cell_xyzm) :
    ((cell_xy_compare a b = -1 ∨ cell_xy_compare a b = 0 ∨ cell_xy_compare a b = 1)
      ∧ (cell_xy_compare a b = 0 ↔ a = b)
      ∧ cell_xy_compare a b = -cell_xy_compare b a
      ∧ (cell_xy_compare a b ≤ 0 → cell_xy_compare b c ≤ 0 → cell_xy_compare a c ≤ 0))
    ∧ ((cell_xyz_compare p q = -1 ∨ cell_xyz_compare p q = 0 ∨ cell_xyz_compare p q = 1)
      ∧ (cell_xyz_compare p q = 0 ↔ (p.hi = q.hi ∧ p.lo = q.lo))
      ∧ cell_xyz_compare p q = -cell_xyz_compare q p
      ∧ (cell_xyz_compare p q ≤ 0 → cell_xyz_compare q r ≤ 0 → cell_xyz_compare p r ≤ 0))
    ∧ ((cell_xyzm_compare u v = -1 ∨ cell_xyzm_compare u v = 0 ∨ cell_xyzm_compare u v = 1)
      ∧ (cell_xyzm_compare u v = 0 ↔ (u.hi = v.hi ∧ u.lo = v.lo))
      ∧ cell_xyzm_compare u v = -cell_xyzm_compare v u
      ∧ (cell_xyzm_compare u v ≤ 0 → cell_xyzm_compare v w ≤ 0 →
          cell_xyzm_compare u w ≤ 0)) :=
  ⟨cell_xy_compare_order a b c, cell_xyz_compare_order p q r, cell_xyzm_compare_order u v w⟩

/-- C6: on halves below `2^64`, `cell_xyzm_compare` and `cell_xyz_compare` are
the three-way comparison of the numbers `hi * 2^64 + lo`. -/
theorem compare_128 (u v : cell_xyzm) (p q : cell_xyz)
    (hu : u.lo < 2 ^ 64) (hv : v.lo < 2 ^ 64) (hp : p.lo < 2 ^ 64) (hq : q.lo < 2 ^ 64) :
    cell_xyzm_compare u v
        = (if u.hi * 2 ^ 64 + u.lo < v.hi * 2 ^ 64 + v.lo then -1
           else if u.hi * 2 ^ 64 + u.lo > v.hi * 2 ^ 64 + v.lo then 1 else 0)
    ∧ cell_xyz_compare p q
        = (if p.hi * 2 ^ 64 + p.lo < q.hi * 2 ^ 64 + q.lo then -1
           else if p.hi * 2 ^ 64 + p.lo > q.hi * 2 ^ 64 + q.lo then 1 else 0) := by
  constructor
  all_goals
    simp only [cell_xyz_compare, cell_xyzm_compare]
    split_ifs <;> omega

/-- C6 at the cells `(1, 0)` and `(0, 2^64 - 1)`: the first is the larger. -/
theorem compare_128_witness :
    cell_xyzm_compare { hi := 1, lo := 0 } { hi := 0, lo := 2 ^ 64 - 1 } = 1
    ∧ cell_xyzm_compare { hi := 1, lo := 0 } { hi := 0, lo := 2 ^ 64 - 1 }
        = (if 1 * 2 ^ 64 + 0 < 0 * 2 ^ 64 + (2 ^ 64 - 1) then -1
           else if 1 * 2 ^ 64 + 0 > 0 * 2 ^ 64 + (2 ^ 64 - 1) then 1 else 0)
    ∧ cell_xyz_compare { hi := 1, lo := 0 } { hi := 0, lo := 2 ^ 64 - 1 }
        = (if 1 * 2 ^ 64 + 0 < 0 * 2 ^ 64 + (2 ^ 64 - 1) then -1
           else if 1 * 2 ^ 64 + 0 > 0 * 2 ^ 64 + (2 ^ 64 - 1) then 1 else 0) :=
  ⟨by decide,
    compare_128 { hi := 1, lo := 0 } { hi := 0, lo := 2 ^ 64 - 1 }
      { hi := 1, lo := 0 } { hi := 0, lo := 2 ^ 64 - 1 }
      (by decide) (by decide) (by decide) (by decide)⟩

/-! ## Clamp boundary and concrete cells -/

theorem clip_zero : clip 0 = 0 := by
  unfold clip
  rw [if_neg (lt_irrefl 0)]
  have hM : ¬ (0 : ℚ) > MAX_COORD := by rw [MAX_COORD_eq]; norm_num
  rw [if_neg hM]

theorem clip_MAX_COORD : clip MAX_COORD = MAX_COORD := by
  unfold clip
  have hM : ¬ MAX_COORD < 0 := by rw [MAX_COORD_eq]; norm_num
  rw [if_neg hM, if_neg (lt_irrefl _)]

theorem clip_of_neg (x : ℚ) (h : x < 0) : clip x = clip 0 := by
  rw [clip_zero]; unfold clip; rw [if_pos h]

theorem clip_of_gt (x : ℚ) (h : x > MAX_COORD) : clip x = clip MAX_COORD := by
  rw [clip_MAX_COORD]
  unfold clip
  have h0 : ¬ x < 0 := by
    have hM : (0 : ℚ) ≤ MAX_COORD := by rw [MAX_COORD_eq]; norm_num
    exact not_lt.mpr (le_trans hM h.le)
  rw [if_neg h0, if_pos h]

/-- The 2D cell depends on its coordinates through `clip` only. -/
theorem cell_xy_encode_congr (x x' y y' : ℚ) (hx : clip x = clip x') (hy : clip y = clip y') :
    cell_xy_encode x y = cell_xy_encode x' y' := by
  simp only [cell_xy_encode, hx, hy]

theorem to_uint32_zero : to_uint32 (clip 0 * scale) = 0 := by
  rw [clip_zero, zero_mul]
  simp [to_uint32, trunc]

theorem to_uint32_MAX_COORD : to_uint32 (clip MAX_COORD * scale) = 0xffffffff := by
  have h := (to_uint32_eq_floor _ (clip_scale_nonneg MAX_COORD) (clip_scale_lt MAX_COORD)).1
  have hf : ⌊clip MAX_COORD * scale⌋ = 4294967295 := by
    rw [Int.floor_eq_iff, clip_MAX_COORD, MAX_COORD_eq, scale_eq]
    constructor <;> norm_num
  rw [hf] at h
  exact_mod_cast h

/-- C7: a negative `x` encodes like `0` and an `x` above `MAX_COORD` encodes
like `MAX_COORD`, in the first and in the second argument of `cell_xy_encode`;
in particular at `-1e-7` and at `1.0000001`. -/
theorem clamp_boundary (x y : ℚ) :
    (x < 0 → cell_xy_encode x y = cell_xy_encode 0 y)
    ∧ (x > MAX_COORD → cell_xy_encode x y = cell_xy_encode MAX_COORD y)
    ∧ (y < 0 → cell_xy_encode x y = cell_xy_encode x 0)
    ∧ (y > MAX_COORD → cell_xy_encode x y = cell_xy_encode x MAX_COORD)
    ∧ cell_xy_encode (-1 / 10 ^ 7) y = cell_xy_encode 0 y
    ∧ cell_xy_encode (10000001 / 10 ^ 7) y = cell_xy_encode MAX_COORD y
    ∧ cell_xy_encode x (-1 / 10 ^ 7) = cell_xy_encode x 0
    ∧ cell_xy_encode x (10000001 / 10 ^ 7) = cell_xy_encode x MAX_COORD
    ∧ MAX_COORD = 1 - 1 / 2 ^ 53 := by
  have hneg : (-1 / 10 ^ 7 : ℚ) < 0 := by norm_num
  have hbig : (10000001 / 10 ^ 7 : ℚ) > MAX_COORD := by rw [MAX_COORD_eq]; norm_num
  exact ⟨fun h => cell_xy_encode_congr _ _ _ _ (clip_of_neg x h) rfl,
    fun h => cell_xy_encode_congr _ _ _ _ (clip_of_gt x h) rfl,
    fun h => cell_xy_encode_congr _ _ _ _ rfl (clip_of_neg y h),
    fun h => cell_xy_encode_congr _ _ _ _ rfl (clip_of_gt y h),
    cell_xy_encode_congr _ _ _ _ (clip_of_neg _ hneg) rfl,
    cell_xy_encode_congr _ _ _ _ (clip_of_gt _ hbig) rfl,
    cell_xy_encode_congr _ _ _ _ rfl (clip_of_neg _ hneg),
    cell_xy_encode_congr _ _ _ _ rfl (clip_of_gt _ hbig),
    MAX_COORD_eq⟩

set_option maxRecDepth 8192 in
/-- C8: `cell_xy_encode 0 0` is `0`, `cell_xy_encode MAX_COORD MAX_COORD` is
`0xffffffffffffffff`, whose string is the 16 characters `ffffffffffffffff`,
which parse back to `0xffffffffffffffff`. -/
theorem concrete_scenario :
    cell_xy_encode 0 0 = 0x0000000000000000
    ∧ cell_xy_encode MAX_COORD MAX_COORD = 0xffffffffffffffff
    ∧ cell_xy_string 0xffffffffffffffff = "ffffffffffffffff".toList
    ∧ (cell_xy_string 0xffffffffffffffff).length = 16
    ∧ cell_xy_from_string (some "ffffffffffffffff".toList) = some 0xffffffffffffffff := by
  refine ⟨?_, ?_, by decide, by decide, by decide⟩
  · simp only [cell_xy_encode, to_uint32_zero]
    decide
  · simp only [cell_xy_encode, to_uint32_MAX_COORD]
    decide

/-- C9: `cell_xyz_encode x y z` has the `hi` and the `lo` of
`cell_xyzm_encode x y z 0`. -/
theorem cell_xyz_encode_eq_xyzm (x y z : ℚ) :
    (cell_xyz_encode x y z).hi = (cell_xyzm_encode x y z 0).hi
    ∧ (cell_xyz_encode x y z).lo = (cell_xyzm_encode x y z 0).lo :=
  ⟨rfl, rfl⟩

/-! ## String form -/

/-- On nibbles, `HEX` holds the lowercase hexadecimal digit. -/
theorem HEX_at_eq_digitChar (n : Nat) (hn : n < 16) :
    HEX_at n = Nat.digitChar n
      ∧ (('0' ≤ HEX_at n ∧ HEX_at n ≤ '9') ∨ ('a' ≤ HEX_at n ∧ HEX_at n ≤ 'f')) := by
  interval_cases n <;> decide

/-- C10: the string of a 2D cell has 16 characters, each in `0-9a-f`, the `k`-th
being the lowercase hexadecimal digit of the nibble `(c >> (60 - 4k)) & 15`; the
string of a 4D cell is the string of `hi` followed by the string of `lo`, 32
characters in all. -/
theorem string_form (c : Nat) (cell : cell_xyzm) :
    (cell_xy_string c).length = 16
    ∧ (∀ k, k < 16 →
        (cell_xy_string c)[k]? = some (Nat.digitChar ((c >>> (60 - 4 * k)) &&& 15)))
    ∧ (∀ ch, ch ∈ cell_xy_string c → ('0' ≤ ch ∧ ch ≤ '9') ∨ ('a' ≤ ch ∧ ch ≤ 'f'))
    ∧ (cell_xyzm_string cell).length = 32
    ∧ cell_xyzm_string cell = cell_xy_string cell.hi ++ cell_xy_string cell.lo := by
  refine ⟨cell_xy_string_length c, ?_, ?_, ?_, cell_xyzm_string_eq cell⟩
  · intro k hk
    rw [cell_xy_string_eq, List.getElem?_map, List.getElem?_range hk]
    simp only [Option.map_some']
    rw [(HEX_at_eq_digitChar _ (nibble_lt _)).1]
  · intro ch hch
    rw [cell_xy_string_eq, List.mem_map] at hch
    obtain ⟨k, _, rfl⟩ := hch
    exact (HEX_at_eq_digitChar _ (nibble_lt _)).2
  · rw [cell_xyzm_string_eq, List.length_append, cell_xy_string_length, cell_xy_string_length]

/-! ## Parsing arbitrary strings -/

set_option maxRecDepth 8192 in
/-- The table on the ASCII codes: the digit value on `0-9`, `a-f`, `A-F` and the
filler `45` elsewhere. -/
theorem TBL_at_ascii (ch : Nat) (h : ch < 128) : TBL_at ch = some (table_value ch) := by
  interval_cases ch <;> decide

theorem str_at_lt (s : List Char) (i : Nat) (h : i < s.length) :
    str_at s i = some (s[i]).toNat := by
  rw [str_at, if_pos h, List.getD_eq_getElem _ _ h]

theorem str_at_length (s : List Char) : str_at s s.length = some 0 := by
  rw [str_at, if_neg (lt_irrefl _), if_pos rfl]

/-- The parsing loop on a string of non-NUL ASCII characters, started at an
index inside the string: it folds the table values of the characters from that
index up to index `lim`. -/
theorem from_string_loop_fold (s : List Char) (lim : Nat)
    (hs : ∀ ch, ch ∈ s → ch.toNat ≠ 0 ∧ ch.toNat < 128) :
    ∀ fuel i cell, i ≤ s.length → min (lim - i) (s.length - i) < fuel →
      from_string_loop s lim fuel i cell
        = some (((s.drop i).take (lim - i)).foldl
            (fun c ch => shift_in c (table_value ch.toNat)) cell) := by
  intro fuel
  induction fuel with
  | zero => intro i cell _ h; omega
  | succ fuel ih =>
    intro i cell hi hf
    rw [from_string_loop]
    by_cases hlen : i < s.length
    · obtain ⟨h0, h128⟩ := hs _ (List.getElem_mem hlen)
      rw [str_at_lt s i hlen]
      by_cases hlim : i < lim
      · simp only [ne_eq, h0, not_false_eq_true, hlim, and_self, if_true, TBL_at_ascii _ h128]
        rw [ih (i + 1) _ (by omega) (by omega), List.drop_eq_getElem_cons hlen]
        have e : lim - i = (lim - (i + 1)) + 1 := by omega
        rw [e, List.take_succ_cons, List.foldl_cons]
        rfl
      · have e : lim - i = 0 := by omega
        simp only [hlim, and_false, if_false, e, List.take_zero, List.foldl_nil]
    · have e : i = s.length := by omega
      subst e
      rw [str_at_length]
      simp

theorem shift_in_eq (cell t : Nat) (hc : cell < 2 ^ 60) (ht : t < 16) :
    shift_in cell t = 16 * cell + t := by
  have h1 : cell <<< 4 < 2 ^ 64 := by rw [Nat.shiftLeft_eq]; omega
  have h2 : cell <<< 4 = 2 ^ 4 * cell := by rw [Nat.shiftLeft_eq, Nat.mul_comm]
  rw [shift_in, Nat.mod_eq_of_lt h1, h2, ← Nat.mul_add_lt_is_or (by omega : t < 2 ^ 4)]

theorem hex_digit_value_lt (ch : Nat) : hex_digit_value ch < 16 := by
  unfold hex_digit_value
  split_ifs <;> omega

theorem table_value_hex (ch : Nat) (h : is_hex_digit ch = true) :
    table_value ch = hex_digit_value ch := by
  rw [table_value, if_pos h]

theorem is_hex_digit_ascii (ch : Nat) (h : is_hex_digit ch = true) : ch ≠ 0 ∧ ch < 128 := by
  simp only [is_hex_digit, Bool.or_eq_true, Bool.and_eq_true, decide_eq_true_eq] at h
  omega

/-- On at most sixteen hexadecimal digits the parsing fold never leaves 64 bits:
it is the base 16 fold. -/
theorem foldl_shift_in_hex (s : List Char) (hs : ∀ ch, ch ∈ s → is_hex_digit ch.toNat = true) :
    ∀ m acc, acc < 16 ^ m → m + s.length ≤ 16 →
      s.foldl (fun c ch => shift_in c (table_value ch.toNat)) acc
        = s.foldl (fun n ch => 16 * n + hex_digit_value ch.toNat) acc := by
  induction s with
  | nil => intro m acc _ _; rfl
  | cons ch s ih =>
    intro m acc hacc hlen
    simp only [List.length_cons] at hlen
    have hm : m ≤ 15 := by omega
    have h60 : acc < 2 ^ 60 :=
      lt_of_lt_of_le hacc (le_trans (Nat.pow_le_pow_right (by decide) hm) (by decide))
    have hv := hex_digit_value_lt ch.toNat
    rw [List.foldl_cons, List.foldl_cons, table_value_hex _ (hs ch (List.mem_cons_self _ _)),
      shift_in_eq _ _ h60 hv]
    apply ih (fun c hc => hs c (List.mem_cons_of_mem _ hc)) (m + 1)
    · rw [pow_succ]; omega
    · omega

theorem hex_number_lt (s : List Char) :
    ∀ acc m, acc < 16 ^ m →
      s.foldl (fun n ch => 16 * n + hex_digit_value ch.toNat) acc < 16 ^ (m + s.length) := by
  induction s with
  | nil => intro acc m h; simpa using h
  | cons ch s ih =>
    intro acc m h
    have hv := hex_digit_value_lt ch.toNat
    rw [List.foldl_cons, List.length_cons]
    have := ih (16 * acc + hex_digit_value ch.toNat) (m + 1) (by rw [pow_succ]; omega)
    have e : m + 1 + s.length = m + (s.length + 1) := by omega
    rw [e] at this
    exact this


theorem hex_digits_ascii (s : List Char) (hs : ∀ ch, ch ∈ s → is_hex_digit ch.toNat = true) :
    ∀ ch, ch ∈ s → ch.toNat ≠ 0 ∧ ch.toNat < 128 :=
  fun ch h => is_hex_digit_ascii _ (hs ch h)

/-- The 2D parser on a string of non-NUL ASCII characters: the fold of the table
values of the first sixteen characters. -/
theorem cell_xy_from_string_fold (s : List Char)
    (hs : ∀ ch, ch ∈ s → ch.toNat ≠ 0 ∧ ch.toNat < 128) :
    cell_xy_from_string (some s)
      = some ((s.take 16).foldl (fun c ch => shift_in c (table_value ch.toNat)) 0) := by
  have h := from_string_loop_fold s 16 hs 17 0 0 (Nat.zero_le _) (by omega)
  rw [List.drop_zero, Nat.sub_zero] at h
  exact h

/-- The 4D parser on a string of at least sixteen non-NUL ASCII characters: `hi`
folds characters `0..15`, `lo` folds characters `16..31`. -/
theorem cell_xyzm_from_string_fold (s : List Char)
    (hs : ∀ ch, ch ∈ s → ch.toNat ≠ 0 ∧ ch.toNat < 128) (hlen : 16 ≤ s.length) :
    cell_xyzm_from_string (some s)
      = some { hi := (s.take 16).foldl (fun c ch => shift_in c (table_value ch.toNat)) 0,
               lo := ((s.drop 16).take 16).foldl
                 (fun c ch => shift_in c (table_value ch.toNat)) 0 } := by
  have h1 := from_string_loop_fold s 16 hs 17 0 0 (Nat.zero_le _) (by omega)
  have h2 := from_string_loop_fold s 32 hs 17 16 0 hlen (by omega)
  rw [List.drop_zero, Nat.sub_zero] at h1
  have e : 32 - 16 = 16 := rfl
  rw [e] at h2
  simp only [cell_xyzm_from_string, h1, h2]

/-- The 2D parser on at most sixteen hexadecimal digits returns the number they
denote. -/
theorem cell_xy_from_string_hex (s : List Char)
    (hs : ∀ ch, ch ∈ s → is_hex_digit ch.toNat = true) (hlen : s.length ≤ 16) :
    cell_xy_from_string (some s) = some (hex_number s) := by
  rw [cell_xy_from_string_fold s (hex_digits_ascii s hs), List.take_of_length_le hlen,
    foldl_shift_in_hex s hs 0 0 (by decide) (by omega)]
  rfl

theorem hex_number_pad (n : Nat) (s : List Char) :
    hex_number (List.replicate n '0' ++ s) = hex_number s := by
  unfold hex_number
  rw [List.foldl_append]
  congr 1
  induction n with
  | zero => rfl
  | succ n ih => rw [List.replicate_succ, List.foldl_cons]; exact ih

theorem is_hex_digit_pad (n : Nat) (s : List Char)
    (hs : ∀ ch, ch ∈ s → is_hex_digit ch.toNat = true) :
    ∀ ch, ch ∈ List.replicate n '0' ++ s → is_hex_digit ch.toNat = true := by
  intro ch h
  rw [List.mem_append] at h
  rcases h with h | h
  · rw [(List.mem_replicate.mp h).2]; rfl
  · exact hs ch h

/-- The 4D parser on sixteen to thirty-two hexadecimal digits: `hi` is the
number of the first sixteen digits, `lo` the number of the others. -/
theorem cell_xyzm_from_string_hex (s : List Char)
    (hs : ∀ ch, ch ∈ s → is_hex_digit ch.toNat = true) (h16 : 16 ≤ s.length)
    (h32 : s.length ≤ 32) :
    cell_xyzm_from_string (some s)
      = some { hi := hex_number (s.take 16), lo := hex_number (s.drop 16) } := by
  have hd : (s.drop 16).length ≤ 16 := by rw [List.length_drop]; omega
  rw [cell_xyzm_from_string_fold s (hex_digits_ascii s hs) h16, List.take_of_length_le hd,
    foldl_shift_in_hex (s.take 16) (fun c hc => hs c (List.mem_of_mem_take hc)) 0 0 (by decide)
      (by rw [List.length_take]; omega),
    foldl_shift_in_hex (s.drop 16) (fun c hc => hs c (List.mem_of_mem_drop hc)) 0 0 (by decide)
      (by omega)]
  rfl

/-! ## Claims on parsing -/

set_option maxRecDepth 8192 in
/-- C11, as stated, fails: the invalid character `g` parses as `45`, not as `0`;
`"g"` and `"0"` give different cells, and so do the 32-character strings that
start with `g` and with `0` and continue with zeros. -/
theorem invalid_char_not_zero :
    cell_xy_from_string (some "g".toList) = some 45
    ∧ cell_xy_from_string (some "0".toList) = some 0
    ∧ cell_xy_from_string (some "g".toList) ≠ cell_xy_from_string (some "0".toList)
    ∧ cell_xyzm_from_string (some "g0000000000000000000000000000000".toList)
        = some { hi := 0xd000000000000000, lo := 0 }
    ∧ cell_xyzm_from_string (some "00000000000000000000000000000000".toList)
        = some { hi := 0, lo := 0 } := by
  refine ⟨by decide, by decide, by decide, by decide, by decide⟩

/-- C11, amended: on a string of non-NUL ASCII characters a character outside
`0-9a-fA-F` contributes the table's filler `45` (and a hexadecimal digit its
value): the 2D parser folds `cell = (cell << 4) | value` over the first sixteen
characters, and on a string of at least sixteen characters the 4D parser does so
over characters `0..15` for `hi` and `16..31` for `lo`. -/
theorem invalid_char_filler (s : List Char)
    (hs : ∀ ch, ch ∈ s → ch.toNat ≠ 0 ∧ ch.toNat < 128) :
    (∀ ch, ch ∈ s → is_hex_digit ch.toNat = false → TBL_at ch.toNat = some 45)
    ∧ (∀ ch, ch ∈ s → is_hex_digit ch.toNat = true →
        TBL_at ch.toNat = some (hex_digit_value ch.toNat))
    ∧ cell_xy_from_string (some s)
        = some ((s.take 16).foldl (fun c ch => shift_in c (table_value ch.toNat)) 0)
    ∧ (16 ≤ s.length →
        cell_xyzm_from_string (some s)
          = some { hi := (s.take 16).foldl (fun c ch => shift_in c (table_value ch.toNat)) 0,
                   lo := ((s.drop 16).take 16).foldl
                     (fun c ch => shift_in c (table_value ch.toNat)) 0 }) := by
  refine ⟨?_, ?_, cell_xy_from_string_fold s hs, cell_xyzm_from_string_fold s hs⟩
  · intro ch hch hx
    rw [TBL_at_ascii _ (hs ch hch).2, table_value, hx]
    rfl
  · intro ch hch hx
    rw [TBL_at_ascii _ (hs ch hch).2, table_value, hx]
    rfl

set_option maxRecDepth 8192 in
/-- C11, amended, at the string `1g`: the cell is `(1 << 4) | 45 = 0x3d`. -/
theorem invalid_char_filler_witness :
    (∀ ch, ch ∈ "1g".toList → ch.toNat ≠ 0 ∧ ch.toNat < 128)
    ∧ cell_xy_from_string (some "1g".toList) = some 0x3d
    ∧ cell_xy_from_string (some "1g".toList)
        = some (("1g".toList.take 16).foldl (fun c ch => shift_in c (table_value ch.toNat)) 0) :=
  ⟨by decide, by decide, (invalid_char_filler "1g".toList (by decide)).2.2.1⟩

/-- C12: on a string of at most sixteen hexadecimal digits `cell_xy_from_string`
returns the number the string denotes in base 16, which is also what it returns
on the string left-padded with `0` to sixteen characters; the empty string and
the null string give `0`. -/
theorem short_string_xy (s : List Char)
    (hs : ∀ ch, ch ∈ s → is_hex_digit ch.toNat = true) (hlen : s.length ≤ 16) :
    cell_xy_from_string (some s) = some (hex_number s)
    ∧ cell_xy_from_string (some s)
        = cell_xy_from_string (some (List.replicate (16 - s.length) '0' ++ s))
    ∧ cell_xy_from_string (some []) = some 0
    ∧ cell_xy_from_string none = some 0 := by
  refine ⟨cell_xy_from_string_hex s hs hlen, ?_, rfl, rfl⟩
  rw [cell_xy_from_string_hex s hs hlen,
    cell_xy_from_string_hex _ (is_hex_digit_pad _ s hs)
      (by rw [List.length_append, List.length_replicate]; omega),
    hex_number_pad]

set_option maxRecDepth 8192 in
/-- C12 at the string `1F`: the cell is `0x1f`. -/
theorem short_string_xy_witness :
    (∀ ch, ch ∈ "1F".toList → is_hex_digit ch.toNat = true)
    ∧ hex_number "1F".toList = 0x1f
    ∧ cell_xy_from_string (some "1F".toList) = some (hex_number "1F".toList) :=
  ⟨by decide, by decide, (short_string_xy "1F".toList (by decide) (by decide)).1⟩

set_option maxRecDepth 8192 in
/-- C13, as stated, fails: the 17 digits `10000000000000000` denote `2^64`, and
left-padded to 32 digits they parse as `(hi, lo) = (1, 0)`; the string itself
parses as `(0x1000000000000000, 0)`, whose number is not `2^64`. -/
theorem short_string_xyzm_not_padded :
    cell_xyzm_from_string (some "10000000000000000".toList)
        = some { hi := 0x1000000000000000, lo := 0 }
    ∧ cell_xyzm_from_string (some "00000000000000010000000000000000".toList)
        = some { hi := 1, lo := 0 }
    ∧ cell_xyzm_from_string (some "10000000000000000".toList)
        ≠ cell_xyzm_from_string
            (some (List.replicate (32 - 17) '0' ++ "10000000000000000".toList))
    ∧ hex_number "10000000000000000".toList = 2 ^ 64
    ∧ cell_number { hi := 0x1000000000000000, lo := 0 } ≠ hex_number "10000000000000000".toList
    ∧ cell_xyz_from_string (some "10000000000000000".toList)
        = some { hi := 0x1000000000000000, lo := 0 } := by
  refine ⟨by decide, by decide, by decide, by decide, by decide, by decide⟩

/-- C13, amended: on a string of `k` hexadecimal digits with `16 ≤ k ≤ 32`,
`cell_xyzm_from_string` and `cell_xyz_from_string` return as `hi` the number of
the first sixteen digits and as `lo` the number of the other `k - 16` digits,
which is what they return when the `32 - k` zeros are put after the sixteenth
digit. -/
theorem short_string_xyzm (s : List Char)
    (hs : ∀ ch, ch ∈ s → is_hex_digit ch.toNat = true) (h16 : 16 ≤ s.length)
    (h32 : s.length ≤ 32) :
    cell_xyzm_from_string (some s)
        = some { hi := hex_number (s.take 16), lo := hex_number (s.drop 16) }
    ∧ cell_xyz_from_string (some s)
        = some { hi := hex_number (s.take 16), lo := hex_number (s.drop 16) }
    ∧ cell_xyzm_from_string (some s)
        = cell_xyzm_from_string
            (some (s.take 16 ++ (List.replicate (32 - s.length) '0' ++ s.drop 16))) := by
  have h := cell_xyzm_from_string_hex s hs h16 h32
  have ht : (s.take 16).length = 16 := by rw [List.length_take]; omega
  refine ⟨h, ?_, ?_⟩
  · simp only [cell_xyz_from_string, h]
  · have hd : ∀ ch, ch ∈ List.replicate (32 - s.length) '0' ++ s.drop 16 →
        is_hex_digit ch.toNat = true :=
      is_hex_digit_pad _ _ (fun c hc => hs c (List.mem_of_mem_drop hc))
    have hall : ∀ ch, ch ∈ s.take 16 ++ (List.replicate (32 - s.length) '0' ++ s.drop 16) →
        is_hex_digit ch.toNat = true := by
      intro ch hch
      rw [List.mem_append] at hch
      rcases hch with hch | hch
      · exact hs ch (List.mem_of_mem_take hch)
      · exact hd ch hch
    rw [h, cell_xyzm_from_string_hex _ hall
        (by rw [List.length_append, ht]; omega)
        (by rw [List.length_append, List.length_append, List.length_replicate,
              List.length_drop, ht]; omega),
      List.take_left' ht, List.drop_left' ht, hex_number_pad]

set_option maxRecDepth 8192 in
/-- C13, amended, at the 17 digits `10000000000000000`. -/
theorem short_string_xyzm_witness :
    (∀ ch, ch ∈ "10000000000000000".toList → is_hex_digit ch.toNat = true)
    ∧ hex_number ("10000000000000000".toList.take 16) = 0x1000000000000000
    ∧ hex_number ("10000000000000000".toList.drop 16) = 0
    ∧ cell_xyzm_from_string (some "10000000000000000".toList)
        = some { hi := hex_number ("10000000000000000".toList.take 16),
                 lo := hex_number ("10000000000000000".toList.drop 16) } :=
  ⟨by decide, by decide, by decide,
    (short_string_xyzm "10000000000000000".toList (by decide) (by decide) (by decide)).1⟩

/-! ## Bit layout of the cells -/

/-- Bits of the 128-bit number of a cell: the low 64 are those of `lo`, the
others those of `hi`. -/
theorem cell_number_bit (cell : cell_xyzm) (hlo : cell.lo < 2 ^ 64) (k : Nat) :
    (cell_number cell).testBit k
      = if k < 64 then cell.lo.testBit k else cell.hi.testBit (k - 64) := by
  rw [cell_number, Nat.mul_comm]
  exact Nat.testBit_mul_pow_two_add _ hlo k

/-- The second interleaving stage of the 4D encoder: in the number of the cell
the odd bits are the bits of `ac` and the even bits are the bits of `bd`. -/
theorem halves_bit (ac bd j : Nat) (hj : j < 64) :
    (cell_number
        { hi := ((interleave ((ac >>> 32) % 2 ^ 32) <<< 1) % 2 ^ 64)
                  ||| interleave ((bd >>> 32) % 2 ^ 32),
          lo := ((interleave (ac % 2 ^ 32) <<< 1) % 2 ^ 64)
                  ||| interleave (bd % 2 ^ 32) }).testBit (2 * j + 1) = ac.testBit j
    ∧ (cell_number
        { hi := ((interleave ((ac >>> 32) % 2 ^ 32) <<< 1) % 2 ^ 64)
                  ||| interleave ((bd >>> 32) % 2 ^ 32),
          lo := ((interleave (ac % 2 ^ 32) <<< 1) % 2 ^ 64)
                  ||| interleave (bd % 2 ^ 32) }).testBit (2 * j) = bd.testBit j := by
  have m32 : ∀ n : Nat, n % 2 ^ 32 < 2 ^ 32 := fun n => Nat.mod_lt _ (by decide)
  rw [cell_number_bit _ (pair_lt _ _), cell_number_bit _ (pair_lt _ _)]
  simp only [pair_bit _ _ (m32 _) (m32 _), Nat.testBit_mod_two_pow, Nat.testBit_shiftRight]
  by_cases h : j < 32
  · have h1 : 2 * j + 1 < 64 := by omega
    have h2 : 2 * j < 64 := by omega
    have h3 : (2 * j + 1) % 2 = 1 := by omega
    have h4 : ¬ (2 * j) % 2 = 1 := by omega
    have h5 : (2 * j + 1) / 2 = j := by omega
    have h6 : (2 * j) / 2 = j := by omega
    simp [h, h1, h2, h3, h4, h5, h6]
  · have h1 : ¬ 2 * j + 1 < 64 := by omega
    have h2 : ¬ 2 * j < 64 := by omega
    have e : 2 * j + 1 - 64 = 2 * j - 63 := by omega
    have h1' : 2 * j - 63 < 64 := by omega
    have h2' : 2 * j - 64 < 64 := by omega
    have h3 : (2 * j - 63) % 2 = 1 := by omega
    have h4 : ¬ (2 * j - 64) % 2 = 1 := by omega
    have h5 : (2 * j - 63) / 2 < 32 := by omega
    have h6 : (2 * j - 64) / 2 < 32 := by omega
    have h7 : 32 + (2 * j - 63) / 2 = j := by omega
    have h8 : 32 + (2 * j - 64) / 2 = j := by omega
    rw [e]
    simp [h1, h2, h1', h2', h3, h4, h5, h6, h7, h8]

/-- A multiple of `2^-32` below one is its own fixed point value. -/
theorem fixed_of_div (n : Nat) (hn : n < 2 ^ 32) :
    to_uint32 (clip ((n : ℚ) / scale) * scale) = n := by
  have hp : (0 : ℚ) < 2 ^ 32 := by norm_num
  have hn' : (n : ℚ) ≤ 2 ^ 32 - 1 := by
    have : n + 1 ≤ 2 ^ 32 := hn
    have h2 : ((n + 1 : Nat) : ℚ) ≤ ((2 ^ 32 : Nat) : ℚ) := by exact_mod_cast this
    push_cast at h2
    linarith
  have h0 : ¬ (n : ℚ) / scale < 0 := by
    rw [scale_eq]; exact not_lt.mpr (div_nonneg (Nat.cast_nonneg n) hp.le)
  have h1 : ¬ (n : ℚ) / scale > MAX_COORD := by
    rw [scale_eq, MAX_COORD_eq, gt_iff_lt, not_lt, div_le_iff₀ hp]
    have : (2 : ℚ) ^ 32 - 1 ≤ (1 - 1 / 2 ^ 53) * 2 ^ 32 := by norm_num
    linarith
  have hc : clip ((n : ℚ) / scale) = (n : ℚ) / scale := by
    unfold clip; rw [if_neg h0, if_neg h1]
  have hs : (n : ℚ) / scale * scale = n := by
    rw [scale_eq]; field_simp
  rw [hc, hs]
  have h := (to_uint32_eq_floor (n : ℚ) (Nat.cast_nonneg n) (by exact_mod_cast hn)).1
  rw [Int.floor_natCast] at h
  exact_mod_cast h

/-- Interleaving the odd and the even bits of a 64-bit word gives the word back. -/
theorem pair_deinterleave (w : Nat) (hw : w < 2 ^ 64) :
    ((interleave (deinterleave (w >>> 1)) <<< 1) % 2 ^ 64) ||| interleave (deinterleave w)
      = w := by
  apply Nat.eq_of_testBit_eq
  intro j
  rw [pair_bit _ _ (deinterleave_lt _) (deinterleave_lt _), deinterleave_bit, deinterleave_bit,
    Nat.testBit_shiftRight]
  by_cases hj : j < 64
  · have h1 : j / 2 < 32 := by omega
    rcases Nat.mod_two_eq_zero_or_one j with h0 | h0
    · have h2 : 2 * (j / 2) = j := by omega
      simp [hj, h0, h1, h2]
    · have h2 : 1 + 2 * (j / 2) = j := by omega
      simp [hj, h0, h1, h2]
  · simp [hj, testBit_of_lt_two_pow_64 hw hj]

theorem maskA_bit (j : Nat) :
    (0xAAAAAAAAAAAAAAAA : Nat).testBit j = decide (j < 64 ∧ j % 2 = 1) := by
  by_cases hj : j < 64
  · interval_cases j <;> decide
  · rw [testBit_of_lt_two_pow_64 (by decide) hj]; simp [hj]

theorem mask1_bit (j : Nat) :
    (0x1111111111111111 : Nat).testBit j = decide (j < 64 ∧ j % 4 = 0) := by
  by_cases hj : j < 64
  · interval_cases j <;> decide
  · rw [testBit_of_lt_two_pow_64 (by decide) hj]; simp [hj]

/-- Two 32-bit halves joined into a 64-bit word, and split again. -/
theorem join_split (p q : Nat) (hp : p < 2 ^ 32) (hq : q < 2 ^ 32) :
    ((((p <<< 32) % 2 ^ 64) ||| q) >>> 32) % 2 ^ 32 = p
    ∧ (((p <<< 32) % 2 ^ 64) ||| q) % 2 ^ 32 = q := by
  constructor
  · apply Nat.eq_of_testBit_eq
    intro j
    rw [Nat.testBit_mod_two_pow, Nat.testBit_shiftRight, Nat.testBit_or,
      Nat.testBit_mod_two_pow, Nat.testBit_shiftLeft]
    by_cases hj : j < 32
    · have h1 : 32 + j < 64 := by omega
      have h2 : 32 + j ≥ 32 := by omega
      have h3 : 32 + j - 32 = j := by omega
      simp [hj, h1, h3, testBit_of_lt_two_pow_32 hq h2]
    · simp [hj, testBit_of_lt_two_pow_32 hp (Nat.le_of_not_lt hj)]
  · apply Nat.eq_of_testBit_eq
    intro j
    rw [Nat.testBit_mod_two_pow, Nat.testBit_or, Nat.testBit_mod_two_pow,
      Nat.testBit_shiftLeft]
    by_cases hj : j < 32
    · have h1 : ¬ j ≥ 32 := by omega
      simp [hj, h1]
    · simp [hj, testBit_of_lt_two_pow_32 hq (Nat.le_of_not_lt hj)]

theorem join_lt (p q : Nat) (hq : q < 2 ^ 32) : ((p <<< 32) % 2 ^ 64) ||| q < 2 ^ 64 :=
  Nat.or_lt_two_pow (Nat.mod_lt _ (by decide)) (lt_trans hq (by decide))

/-- Word level converse round trip of the 4D layout: encoding the four words
decoded from `(hi, lo)` gives `(hi, lo)` back. -/
theorem words_converse (hi lo : Nat) (hhi : hi < 2 ^ 64) (hlo : lo < 2 ^ 64)
    (ac bd : Nat)
    (hac : ac = ((deinterleave (hi >>> 1) <<< 32) % 2 ^ 64) ||| deinterleave (lo >>> 1))
    (hbd : bd = ((deinterleave hi <<< 32) % 2 ^ 64) ||| deinterleave lo) :
    ((interleave (deinterleave (ac >>> 1)) <<< 1) % 2 ^ 64) ||| interleave (deinterleave ac) = ac
    ∧ ((interleave (deinterleave (bd >>> 1)) <<< 1) % 2 ^ 64) ||| interleave (deinterleave bd)
        = bd
    ∧ ((interleave ((ac >>> 32) % 2 ^ 32) <<< 1) % 2 ^ 64)
        ||| interleave ((bd >>> 32) % 2 ^ 32) = hi
    ∧ ((interleave (ac % 2 ^ 32) <<< 1) % 2 ^ 64) ||| interleave (bd % 2 ^ 32) = lo := by
  have lac : ac < 2 ^ 64 := by rw [hac]; exact join_lt _ _ (deinterleave_lt _)
  have lbd : bd < 2 ^ 64 := by rw [hbd]; exact join_lt _ _ (deinterleave_lt _)
  obtain ⟨a1, a2⟩ := join_split _ _ (deinterleave_lt (hi >>> 1)) (deinterleave_lt (lo >>> 1))
  obtain ⟨b1, b2⟩ := join_split _ _ (deinterleave_lt hi) (deinterleave_lt lo)
  refine ⟨pair_deinterleave ac lac, pair_deinterleave bd lbd, ?_, ?_⟩
  · rw [hac, hbd, a1, b1, pair_deinterleave hi hhi]
  · rw [hac, hbd, a2, b2, pair_deinterleave lo hlo]

/-- For `a < b` there is a bit set in `b` and clear in `a` above which the two
numbers agree. -/
theorem exists_deciding_bit (a b : Nat) (h : a < b) :
    ∃ i, a.testBit i = false ∧ b.testBit i = true ∧ ∀ j, i < j → a.testBit j = b.testBit j := by
  have hne : a ^^^ b ≠ 0 := by
    intro h0
    exact (Nat.ne_of_lt h) (Nat.xor_eq_zero.mp h0)
  obtain ⟨i, hi, hj⟩ := Nat.exists_most_significant_bit hne
  have agree : ∀ j, i < j → a.testBit j = b.testBit j := by
    intro j hij
    have := hj j hij
    rw [Nat.testBit_xor] at this
    revert this
    cases a.testBit j <;> cases b.testBit j <;> simp
  rw [Nat.testBit_xor] at hi
  refine ⟨i, ?_, ?_, agree⟩
  · cases ha : a.testBit i
    · rfl
    · have hb : b.testBit i = false := by
        rw [ha] at hi; revert hi; cases b.testBit i <;> simp
      exact absurd (Nat.lt_of_testBit i hb ha (fun j hij => (agree j hij).symm))
        (Nat.lt_asymm h)
  · cases hb : b.testBit i
    · have ha : a.testBit i = true := by
        rw [hb] at hi; revert hi; cases a.testBit i <;> simp
      exact absurd (Nat.lt_of_testBit i hb ha (fun j hij => (agree j hij).symm))
        (Nat.lt_asymm h)
    · rfl

/-- The pair word is monotone in its first component. -/
theorem pair_mono_left (a1 a2 b : Nat) (h1 : a1 < 2 ^ 32) (h2 : a2 < 2 ^ 32)
    (hb : b < 2 ^ 32) (h : a1 ≤ a2) :
    ((interleave a1 <<< 1) % 2 ^ 64) ||| interleave b
      ≤ ((interleave a2 <<< 1) % 2 ^ 64) ||| interleave b := by
  rcases Nat.eq_or_lt_of_le h with e | hlt
  · rw [e]
  · obtain ⟨i, hi1, hi2, hj⟩ := exists_deciding_bit a1 a2 hlt
    have hi32 : i < 32 := by
      by_contra hc
      rw [testBit_of_lt_two_pow_32 h2 (Nat.le_of_not_lt hc)] at hi2
      exact Bool.false_ne_true hi2
    apply Nat.le_of_lt
    apply Nat.lt_of_testBit (2 * i + 1)
    · rw [pair_bit a1 b h1 hb]
      have e1 : (2 * i + 1) % 2 = 1 := by omega
      have e2 : (2 * i + 1) / 2 = i := by omega
      simp [e1, e2, hi1]
    · rw [pair_bit a2 b h2 hb]
      have e0 : 2 * i + 1 < 64 := by omega
      have e1 : (2 * i + 1) % 2 = 1 := by omega
      have e2 : (2 * i + 1) / 2 = i := by omega
      simp [e0, e1, e2, hi2]
    · intro j hij
      rw [pair_bit a1 b h1 hb, pair_bit a2 b h2 hb]
      by_cases hodd : j % 2 = 1
      · rw [if_pos hodd, if_pos hodd, hj (j / 2) (by omega)]
      · rw [if_neg hodd, if_neg hodd]

/-- The pair word is monotone in its second component. -/
theorem pair_mono_right (a b1 b2 : Nat) (ha : a < 2 ^ 32) (h1 : b1 < 2 ^ 32)
    (h2 : b2 < 2 ^ 32) (h : b1 ≤ b2) :
    ((interleave a <<< 1) % 2 ^ 64) ||| interleave b1
      ≤ ((interleave a <<< 1) % 2 ^ 64) ||| interleave b2 := by
  rcases Nat.eq_or_lt_of_le h with e | hlt
  · rw [e]
  · obtain ⟨i, hi1, hi2, hj⟩ := exists_deciding_bit b1 b2 hlt
    have hi32 : i < 32 := by
      by_contra hc
      rw [testBit_of_lt_two_pow_32 h2 (Nat.le_of_not_lt hc)] at hi2
      exact Bool.false_ne_true hi2
    apply Nat.le_of_lt
    apply Nat.lt_of_testBit (2 * i)
    · rw [pair_bit a b1 ha h1]
      have e1 : ¬ (2 * i) % 2 = 1 := by omega
      have e2 : (2 * i) / 2 = i := by omega
      simp [e1, e2, hi1]
    · rw [pair_bit a b2 ha h2]
      have e0 : 2 * i < 64 := by omega
      have e1 : ¬ (2 * i) % 2 = 1 := by omega
      have e2 : (2 * i) / 2 = i := by omega
      simp [e0, e1, e2, hi2]
    · intro j hij
      rw [pair_bit a b1 ha h1, pair_bit a b2 ha h2]
      by_cases hodd : j % 2 = 1
      · rw [if_pos hodd, if_pos hodd]
      · rw [if_neg hodd, if_neg hodd, hj (j / 2) (by omega)]

theorem clip_mono (x1 x2 : ℚ) (h : x1 ≤ x2) : clip x1 ≤ clip x2 := by
  have hM : (0 : ℚ) ≤ MAX_COORD := by rw [MAX_COORD_eq]; norm_num
  unfold clip
  split_ifs <;> linarith

/-- The fixed point value is monotone in the coordinate. -/
theorem fixed_mono (x1 x2 : ℚ) (h : x1 ≤ x2) :
    to_uint32 (clip x1 * scale) ≤ to_uint32 (clip x2 * scale) := by
  have e1 := (to_uint32_eq_floor _ (clip_scale_nonneg x1) (clip_scale_lt x1)).1
  have e2 := (to_uint32_eq_floor _ (clip_scale_nonneg x2) (clip_scale_lt x2)).1
  have hs : (0 : ℚ) ≤ scale := by rw [scale_eq]; norm_num
  have hle : ⌊clip x1 * scale⌋ ≤ ⌊clip x2 * scale⌋ :=
    Int.floor_mono (mul_le_mul_of_nonneg_right (clip_mono x1 x2 h) hs)
  rw [← e1, ← e2] at hle
  exact_mod_cast hle

/-! ## Claims on the layout, the conversion and the order -/

theorem fixed_unit : to_uint32 (clip (1 / 2 ^ 32) * scale) = 1 := by
  have h := fixed_of_div 1 (by decide)
  have e : ((1 : Nat) : ℚ) / scale = 1 / 2 ^ 32 := by rw [scale_eq]; norm_num
  rw [e] at h
  exact h

/-- C14, as stated, fails: bit 0 of the Z value lands at position 1 of the
number of the cell and bit 0 of the Y value at position 2, so Z is not above Y. -/
theorem axis_priority_not_z_above_y :
    to_uint32 (clip (1 / 2 ^ 32) * scale) = 1
    ∧ cell_number (cell_xyzm_encode 0 0 (1 / 2 ^ 32) 0) = 2 ^ 1
    ∧ cell_number (cell_xyzm_encode 0 (1 / 2 ^ 32) 0 0) = 2 ^ 2
    ∧ ¬ (Nat.log2 (cell_number (cell_xyzm_encode 0 0 (1 / 2 ^ 32) 0))
          > Nat.log2 (cell_number (cell_xyzm_encode 0 (1 / 2 ^ 32) 0 0))) := by
  have hz : cell_number (cell_xyzm_encode 0 0 (1 / 2 ^ 32) 0) = 2 ^ 1 := by
    simp only [cell_xyzm_encode, to_uint32_zero, fixed_unit]
    decide
  have hy : cell_number (cell_xyzm_encode 0 (1 / 2 ^ 32) 0 0) = 2 ^ 2 := by
    simp only [cell_xyzm_encode, to_uint32_zero, fixed_unit]
    decide
  refine ⟨fixed_unit, hz, hy, ?_⟩
  rw [hz, hy, Nat.log2_two_pow, Nat.log2_two_pow]
  decide

/-- C14, amended: the axis priority of the 4D cell is X > Y > Z > M.  In the
number `hi * 2^64 + lo` of the cell, bit `i` of the X value is at position
`4i + 3`, of the Y value at `4i + 2`, of the Z value at `4i + 1` and of the M
value at `4i`. -/
theorem axis_priority (x y z m : ℚ) (i : Nat) (hi : i < 32) :
    (cell_number (cell_xyzm_encode x y z m)).testBit (4 * i + 3)
        = (to_uint32 (clip x * scale)).testBit i
    ∧ (cell_number (cell_xyzm_encode x y z m)).testBit (4 * i + 2)
        = (to_uint32 (clip y * scale)).testBit i
    ∧ (cell_number (cell_xyzm_encode x y z m)).testBit (4 * i + 1)
        = (to_uint32 (clip z * scale)).testBit i
    ∧ (cell_number (cell_xyzm_encode x y z m)).testBit (4 * i)
        = (to_uint32 (clip m * scale)).testBit i := by
  have e3 : 4 * i + 3 = 2 * (2 * i + 1) + 1 := by omega
  have e2 : 4 * i + 2 = 2 * (2 * i + 1) := by omega
  have e1 : 4 * i + 1 = 2 * (2 * i) + 1 := by omega
  have e0 : 4 * i = 2 * (2 * i) := by omega
  have o1 : 2 * i + 1 < 64 := by omega
  have o0 : 2 * i < 64 := by omega
  have p1 : (2 * i + 1) % 2 = 1 := by omega
  have p0 : ¬ (2 * i) % 2 = 1 := by omega
  have q1 : (2 * i + 1) / 2 = i := by omega
  have q0 : (2 * i) / 2 = i := by omega
  simp only [cell_xyzm_encode]
  refine ⟨?_, ?_, ?_, ?_⟩
  · rw [e3, (halves_bit _ _ _ o1).1, pair_bit _ _ (fixed_lt x) (fixed_lt z)]
    simp [o1, p1, q1]
  · rw [e2, (halves_bit _ _ _ o1).2, pair_bit _ _ (fixed_lt y) (fixed_lt m)]
    simp [o1, p1, q1]
  · rw [e1, (halves_bit _ _ _ o0).1, pair_bit _ _ (fixed_lt x) (fixed_lt z)]
    simp [o0, p0, q0]
  · rw [e0, (halves_bit _ _ _ o0).2, pair_bit _ _ (fixed_lt y) (fixed_lt m)]
    simp [o0, p0, q0]

/-- C14, amended, at `x = 1/2`, `y = 1/4`, `z = 1/8`, `m = 3/4` and bit 31. -/
theorem axis_priority_witness :
    31 < 32
    ∧ (cell_number (cell_xyzm_encode (1 / 2) (1 / 4) (1 / 8) (3 / 4))).testBit (4 * 31 + 3)
        = (to_uint32 (clip (1 / 2) * scale)).testBit 31 :=
  ⟨by decide, (axis_priority (1 / 2) (1 / 4) (1 / 8) (3 / 4) 31 (by decide)).1⟩

/-- C15: `clip x` is `0` for `x < 0`, `MAX_COORD` for `x > MAX_COORD` and `x`
otherwise, and the truncation of `clip x * 2^32` is an integer between `0` and
`2^32 - 1`, which the conversion to `uint32_t` keeps unchanged. -/
theorem clip_protects_conversion (x : ℚ) :
    (x < 0 → clip x = 0)
    ∧ (x > MAX_COORD → clip x = MAX_COORD)
    ∧ (¬ x < 0 → ¬ x > MAX_COORD → clip x = x)
    ∧ clip x * scale < 2 ^ 32
    ∧ 0 ≤ trunc (clip x * scale)
    ∧ trunc (clip x * scale) ≤ 2 ^ 32 - 1
    ∧ ((to_uint32 (clip x * scale) : Nat) : Int) = trunc (clip x * scale)
    ∧ scale = 2 ^ 32 := by
  have ht : trunc (clip x * scale) = ⌊clip x * scale⌋ := by
    rw [trunc, if_pos (clip_scale_nonneg x)]
  obtain ⟨e, hlt⟩ := to_uint32_eq_floor _ (clip_scale_nonneg x) (clip_scale_lt x)
  refine ⟨?_, ?_, ?_, clip_scale_lt x, ?_, ?_, ?_, scale_eq⟩
  · intro h; rw [clip_of_neg x h, clip_zero]
  · intro h; rw [clip_of_gt x h, clip_MAX_COORD]
  · intro h1 h2; unfold clip; rw [if_neg h1, if_neg h2]
  · rw [ht, ← e]; exact Int.natCast_nonneg _
  · rw [ht, ← e]
    have : ((to_uint32 (clip x * scale) : Nat) : Int) < 2 ^ 32 := by exact_mod_cast hlt
    omega
  · rw [ht, e]

/-- C16: for a 32-bit `v`, bit `2i` of `interleave v` is bit `i` of `v`, every
odd bit of `interleave v` is clear, and `interleave` is injective on 32-bit
values. -/
theorem interleave_even_bits (v : Nat) (hv : v < 2 ^ 32) :
    (∀ i, i < 32 → (interleave v).testBit (2 * i) = v.testBit i)
    ∧ (∀ i, (interleave v).testBit (2 * i + 1) = false)
    ∧ interleave v &&& 0xAAAAAAAAAAAAAAAA = 0
    ∧ (∀ u, u < 2 ^ 32 → interleave u = interleave v → u = v) := by
  refine ⟨?_, ?_, ?_, ?_⟩
  · intro i hi
    have h1 : 2 * i < 64 := by omega
    have h2 : (2 * i) % 2 = 0 := by omega
    have h3 : (2 * i) / 2 = i := by omega
    rw [interleave_bit v hv]
    simp [h1, h2, h3]
  · intro i
    have h2 : ¬ (2 * i + 1) % 2 = 0 := by omega
    rw [interleave_bit v hv]
    simp [h2]
  · apply Nat.eq_of_testBit_eq
    intro j
    rw [Nat.testBit_and, interleave_bit v hv, maskA_bit, Nat.zero_testBit]
    by_cases h : j % 2 = 0
    · have : ¬ j % 2 = 1 := by omega
      simp [this]
    · simp [h]
  · intro u hu heq
    apply Nat.eq_of_testBit_eq
    intro i
    by_cases hi : i < 32
    · have h1 : 2 * i < 64 := by omega
      have h2 : (2 * i) % 2 = 0 := by omega
      have h3 : (2 * i) / 2 = i := by omega
      have hb : (interleave u).testBit (2 * i) = (interleave v).testBit (2 * i) := by rw [heq]
      rw [interleave_bit u hu, interleave_bit v hv] at hb
      simpa [h1, h2, h3] using hb
    · rw [testBit_of_lt_two_pow_32 hu (Nat.le_of_not_lt hi),
        testBit_of_lt_two_pow_32 hv (Nat.le_of_not_lt hi)]

/-- C16 at `v = 0xdeadbeef`. -/
theorem interleave_even_bits_witness :
    0xdeadbeef < 2 ^ 32 ∧ interleave 0xdeadbeef &&& 0xAAAAAAAAAAAAAAAA = 0 :=
  ⟨by decide, (interleave_even_bits 0xdeadbeef (by decide)).2.2.1⟩

/-- C17: with `ac` and `bd` the two 64-bit intermediates of `cell_xyzm_encode`,
bit `2j + 1` of the number of the cell is bit `j` of `ac` and bit `2j` is bit
`j` of `bd`, for `j` in `0..63`. -/
theorem cell_interleaves_intermediates (x y z m : ℚ) (j : Nat) (hj : j < 64) :
    (cell_number (cell_xyzm_encode x y z m)).testBit (2 * j + 1)
        = (((interleave (to_uint32 (clip x * scale)) <<< 1) % 2 ^ 64)
            ||| interleave (to_uint32 (clip z * scale))).testBit j
    ∧ (cell_number (cell_xyzm_encode x y z m)).testBit (2 * j)
        = (((interleave (to_uint32 (clip y * scale)) <<< 1) % 2 ^ 64)
            ||| interleave (to_uint32 (clip m * scale))).testBit j :=
  halves_bit _ _ j hj

/-- C17 at `x = 1/2`, `y = 1/4`, `z = 1/8`, `m = 3/4` and `j = 63`. -/
theorem cell_interleaves_intermediates_witness :
    63 < 64
    ∧ (cell_number (cell_xyzm_encode (1 / 2) (1 / 4) (1 / 8) (3 / 4))).testBit (2 * 63)
        = (((interleave (to_uint32 (clip (1 / 4) * scale)) <<< 1) % 2 ^ 64)
            ||| interleave (to_uint32 (clip (3 / 4) * scale))).testBit 63 :=
  ⟨by decide, (cell_interleaves_intermediates (1 / 2) (1 / 4) (1 / 8) (3 / 4) 63 (by decide)).2⟩

/-- C18: encoding the coordinates decoded from a cell gives the cell back, for
every 64-bit 2D cell and for every 4D cell with 64-bit halves. -/
theorem encode_decode (c hi lo : Nat) (hc : c < 2 ^ 64) (hhi : hi < 2 ^ 64)
    (hlo : lo < 2 ^ 64) :
    cell_xy_encode (cell_xy_decode c).1 (cell_xy_decode c).2 = c
    ∧ cell_xyzm_encode (cell_xyzm_decode { hi := hi, lo := lo }).1
        (cell_xyzm_decode { hi := hi, lo := lo }).2.1
        (cell_xyzm_decode { hi := hi, lo := lo }).2.2.1
        (cell_xyzm_decode { hi := hi, lo := lo }).2.2.2 = { hi := hi, lo := lo } := by
  constructor
  · simp only [cell_xy_encode, cell_xy_decode]
    rw [fixed_of_div _ (deinterleave_lt _), fixed_of_div _ (deinterleave_lt _)]
    exact pair_deinterleave c hc
  · obtain ⟨h1, h2, h3, h4⟩ := words_converse hi lo hhi hlo _ _ rfl rfl
    simp only [cell_xyzm_encode, cell_xyzm_decode]
    rw [fixed_of_div _ (deinterleave_lt _), fixed_of_div _ (deinterleave_lt _),
      fixed_of_div _ (deinterleave_lt _), fixed_of_div _ (deinterleave_lt _)]
    rw [h1, h2, h3, h4]

/-- C18 at the cells `0x0123456789abcdef` and
`(0xfedcba9876543210, 0x0f1e2d3c4b5a6978)`. -/
theorem encode_decode_witness :
    (0x0123456789abcdef < 2 ^ 64 ∧ 0xfedcba9876543210 < 2 ^ 64 ∧ 0x0f1e2d3c4b5a6978 < 2 ^ 64)
    ∧ deinterleave (0x0123456789abcdef >>> 1) = 0x505afaf
    ∧ cell_xy_encode (cell_xy_decode 0x0123456789abcdef).1
        (cell_xy_decode 0x0123456789abcdef).2 = 0x0123456789abcdef :=
  ⟨by decide, by decide,
    (encode_decode 0x0123456789abcdef 0xfedcba9876543210 0x0f1e2d3c4b5a6978
      (by decide) (by decide) (by decide)).1⟩

/-- C19: in a 3D cell the bits at the positions that are multiples of four are
clear in both halves. -/
theorem cell_xyz_m_bits_clear (x y z : ℚ) :
    (cell_xyz_encode x y z).hi &&& 0x1111111111111111 = 0
    ∧ (cell_xyz_encode x y z).lo &&& 0x1111111111111111 = 0 := by
  have m32 : ∀ n : Nat, n % 2 ^ 32 < 2 ^ 32 := fun n => Nat.mod_lt _ (by decide)
  have hbd : ∀ k, k % 2 = 0 →
      (((interleave (to_uint32 (clip y * scale)) <<< 1) % 2 ^ 64)
        ||| interleave (to_uint32 (clip 0 * scale))).testBit k = false := by
    intro k hk
    have hk' : ¬ k % 2 = 1 := by omega
    rw [pair_bit _ _ (fixed_lt y) (fixed_lt 0), if_neg hk', to_uint32_zero, Nat.zero_testBit,
      Bool.and_false]
  simp only [cell_xyz_encode, cell_xyzm_encode]
  constructor
  · apply Nat.eq_of_testBit_eq
    intro k
    rw [Nat.testBit_and, mask1_bit, Nat.zero_testBit, pair_bit _ _ (m32 _) (m32 _)]
    by_cases h : k < 64 ∧ k % 4 = 0
    · have h1 : ¬ k % 2 = 1 := by omega
      rw [if_neg h1, Nat.testBit_mod_two_pow, Nat.testBit_shiftRight, hbd _ (by omega)]
      simp
    · simp [h]
  · apply Nat.eq_of_testBit_eq
    intro k
    rw [Nat.testBit_and, mask1_bit, Nat.zero_testBit, pair_bit _ _ (m32 _) (m32 _)]
    by_cases h : k < 64 ∧ k % 4 = 0
    · have h1 : ¬ k % 2 = 1 := by omega
      rw [if_neg h1, Nat.testBit_mod_two_pow, hbd _ (by omega)]
      simp
    · simp [h]

theorem cell_xy_compare_le (a b : Nat) (h : a ≤ b) : cell_xy_compare a b ≤ 0 := by
  unfold cell_xy_compare
  split_ifs <;> omega

/-- C20: `cell_xy_encode` is monotone in each coordinate for the order of
`cell_xy_compare`. -/
theorem cell_xy_encode_monotone (x1 x2 y : ℚ) (h : x1 ≤ x2) :
    cell_xy_compare (cell_xy_encode x1 y) (cell_xy_encode x2 y) ≤ 0
    ∧ cell_xy_compare (cell_xy_encode y x1) (cell_xy_encode y x2) ≤ 0 :=
  ⟨cell_xy_compare_le _ _
      (pair_mono_left _ _ _ (fixed_lt x1) (fixed_lt x2) (fixed_lt y) (fixed_mono x1 x2 h)),
    cell_xy_compare_le _ _
      (pair_mono_right _ _ _ (fixed_lt y) (fixed_lt x1) (fixed_lt x2) (fixed_mono x1 x2 h))⟩

/-- C20 at `x1 = 1/4`, `x2 = 1/2`, `y = 3/4`. -/
theorem cell_xy_encode_monotone_witness :
    (1 / 4 : ℚ) ≤ 1 / 2
    ∧ cell_xy_compare (cell_xy_encode (1 / 4) (3 / 4)) (cell_xy_encode (1 / 2) (3 / 4)) ≤ 0
    ∧ cell_xy_compare (cell_xy_encode (3 / 4) (1 / 4)) (cell_xy_encode (3 / 4) (1 / 2)) ≤ 0 :=
  ⟨by norm_num, cell_xy_encode_monotone (1 / 4) (1 / 2) (3 / 4) (by norm_num)⟩

end Cell
